import Mathlib

/-!
Verification development for the jcp meeting orchestrator.

The Go sources are shallowly embedded: pure helpers become Lean functions,
the smart-meeting control flow becomes a pure function over an oracle that
records the outcome of each external call (LLM requests, deadlines), and Go
errors become `Except` / `Option` values.  Machine integers of the source are
modelled by `Nat`/`Int` (no arithmetic in the relevant code can overflow) and
Go's `time.Time`/`time.Duration` by `Nat` nanosecond counts.
-/

namespace JcpModel

/-! ## Basic character/string utilities (models of Go `strings` helpers)

Go's `strings` package works on bytes; every string the embedded code
inspects for structure uses only ASCII delimiters, so a `List Char` model
with the same algorithms is observation-equivalent on those delimiters.
-/

/-- Whitespace as recognised by `strings.TrimSpace` / `encoding/json`
(restricted to the ASCII whitespace that actually occurs in the data). -/
def isWsChar (c : Char) : Bool :=
  c = ' ' || c = '\t' || c = '\n' || c = '\r'

/-- Drop leading whitespace. -/
def skipWs : List Char → List Char
  | [] => []
  | c :: cs => if isWsChar c then skipWs cs else c :: cs

/-- Model of `strings.TrimSpace` on a char list. -/
def trimSpaceL (cs : List Char) : List Char :=
  ((skipWs ((skipWs cs.reverse)).reverse))

/-- Model of `strings.Contains`: `pat` occurs contiguously inside `cs`. -/
def containsSub (cs pat : List Char) : Bool :=
  if pat.isPrefixOf cs then true
  else match cs with
    | [] => false
    | _ :: rest => containsSub rest pat

/-- Model of `strings.Contains` on strings. -/
def strContains (s pat : String) : Bool :=
  containsSub s.toList pat.toList

/-- Split at the first occurrence of `pat` (model of `strings.Index` plus
slicing): returns the part before the match and the part after the match. -/
def splitFirst (pat : List Char) : List Char → Option (List Char × List Char)
  | [] => if pat.isPrefixOf ([] : List Char) then some ([], []) else none
  | c :: cs =>
    if pat.isPrefixOf (c :: cs) then some ([], (c :: cs).drop pat.length)
    else match splitFirst pat cs with
      | some (b, a) => some (c :: b, a)
      | none => none

/-- The part of `cs` up to (and including) the last occurrence of `c`,
or `none` when `c` does not occur (model of `strings.LastIndex` slicing). -/
def upToLast (c : Char) (cs : List Char) : Option (List Char) :=
  match cs with
  | [] => none
  | x :: xs =>
    match upToLast c xs with
    | some r => some (x :: r)
    | none => if x = c then some [x] else none

/-! ## Error classification (`embed.go` : `isRetryableError`)

A Go `error` value is modelled by whether `errors.Is` matches
`context.Canceled` / `context.DeadlineExceeded` anywhere in its wrap chain,
plus the text of `err.Error()`. -/

/-- Model of a non-nil Go `error` as inspected by `isRetryableError`. -/
structure GoError where
  canceled : Bool
  deadlineExceeded : Bool
  msg : String
deriving Repr, DecidableEq

/-- Model of `isRetryableError` (embed.go lines 65-78); `none` is Go's
`nil` error. -/
def isRetryableError : Option GoError → Bool
  | none => false
  | some e =>
    if e.deadlineExceeded || e.canceled then false
    else if strContains e.msg "config" || strContains e.msg "not found" then false
    else true

/-! ## JSON values and a model of `encoding/json` decoding

Go's `json.Unmarshal` is standard-library code; it is modelled here by a
small recursive-descent reader producing a `Json` tree.  Numbers are kept as
raw lexemes (Go decodes them to `float64`, which none of the embedded code
ever inspects).  Known divergences from `encoding/json`, none of which is
observable through the claims: `\u` escapes decode a single code unit
(surrogate pairs are not combined), raw control characters inside strings
are accepted, leading zeros in numbers are accepted, and struct-field
matching is case-sensitive. -/

inductive Json where
  | null
  | bool (b : Bool)
  | num (raw : String)
  | str (s : String)
  | arr (elems : List Json)
  | obj (members : List (String × Json))
deriving Repr

/-- Value of a hexadecimal digit (code points 48-57 are the digits,
97-102 the lowercase and 65-70 the uppercase hex letters). -/
def hexVal (c : Char) : Option Nat :=
  let n := c.toNat
  if 48 ≤ n ∧ n ≤ 57 then some (n - 48)
  else if 97 ≤ n ∧ n ≤ 102 then some (n - 87)
  else if 65 ≤ n ∧ n ≤ 70 then some (n - 55)
  else none

/-- Read the body of a JSON string after the opening quote; `acc` holds the
decoded characters in reverse. -/
def parseJStringAux : List Char → List Char → Option (String × List Char)
  | _, [] => none
  | acc, c :: rest =>
    if c = '"' then some (⟨acc.reverse⟩, rest)
    else if c = '\\' then
      match rest with
      | [] => none
      | e :: r2 =>
        if e = '"' then parseJStringAux ('"' :: acc) r2
        else if e = '\\' then parseJStringAux ('\\' :: acc) r2
        else if e = '/' then parseJStringAux ('/' :: acc) r2
        else if e = 'b' then parseJStringAux ('\x08' :: acc) r2
        else if e = 'f' then parseJStringAux ('\x0c' :: acc) r2
        else if e = 'n' then parseJStringAux ('\n' :: acc) r2
        else if e = 'r' then parseJStringAux ('\r' :: acc) r2
        else if e = 't' then parseJStringAux ('\t' :: acc) r2
        else if e = 'u' then
          match r2 with
          | h1 :: h2 :: h3 :: h4 :: r3 =>
            match hexVal h1, hexVal h2, hexVal h3, hexVal h4 with
            | some a, some b, some c2, some d =>
              parseJStringAux (Char.ofNat (((a * 16 + b) * 16 + c2) * 16 + d) :: acc) r3
            | _, _, _, _ => none
          | _ => none
        else none
    else parseJStringAux (c :: acc) rest

/-- Read a JSON string body (input begins after the opening quote). -/
def parseJString (cs : List Char) : Option (String × List Char) :=
  parseJStringAux [] cs

/-- Read a JSON number lexeme. -/
def parseJNum (cs : List Char) : Option (String × List Char) :=
  let (sign, cs1) := match cs with
    | '-' :: r => (['-'], r)
    | _ => (([] : List Char), cs)
  let (intPart, cs2) := cs1.span Char.isDigit
  if intPart.isEmpty then none
  else
    let (fracPart, cs3) := match cs2 with
      | '.' :: r =>
        let (d, r2) := r.span Char.isDigit
        if d.isEmpty then (([] : List Char), cs2) else ('.' :: d, r2)
      | _ => ([], cs2)
    let (expPart, cs4) := match cs3 with
      | 'e' :: r | 'E' :: r =>
        let (sgn, r1) := match r with
          | '+' :: r2 => (['+'], r2)
          | '-' :: r2 => (['-'], r2)
          | _ => (([] : List Char), r)
        let (d, r2) := r1.span Char.isDigit
        if d.isEmpty then (([] : List Char), cs3) else ('e' :: sgn ++ d, r2)
      | _ => ([], cs3)
    some (⟨sign ++ intPart ++ fracPart ++ expPart⟩, cs4)

mutual

/-- Read one JSON value (leading whitespace allowed).  The `fuel` argument
only bounds the recursion; `jsonDecodeTop` supplies enough for any input. -/
def parseJValue : Nat → List Char → Option (Json × List Char)
  | 0, _ => none
  | fuel + 1, cs =>
    match skipWs cs with
    | 'n' :: 'u' :: 'l' :: 'l' :: r => some (.null, r)
    | 't' :: 'r' :: 'u' :: 'e' :: r => some (.bool true, r)
    | 'f' :: 'a' :: 'l' :: 's' :: 'e' :: r => some (.bool false, r)
    | '"' :: r =>
      match parseJString r with
      | some (s, r2) => some (.str s, r2)
      | none => none
    | '[' :: r =>
      match skipWs r with
      | ']' :: r2 => some (.arr [], r2)
      | r2 => parseJArrItems fuel r2 []
    | '{' :: r =>
      match skipWs r with
      | '}' :: r2 => some (.obj [], r2)
      | r2 => parseJObjItems fuel r2 []
    | c :: r =>
      if c = '-' || c.isDigit then
        match parseJNum (c :: r) with
        | some (s, r2) => some (.num s, r2)
        | none => none
      else none
    | [] => none

/-- Read the elements of a non-empty JSON array. -/
def parseJArrItems : Nat → List Char → List Json → Option (Json × List Char)
  | 0, _, _ => none
  | fuel + 1, cs, acc =>
    match parseJValue fuel cs with
    | none => none
    | some (v, rest) =>
      match skipWs rest with
      | ',' :: r2 => parseJArrItems fuel r2 (acc ++ [v])
      | ']' :: r2 => some (.arr (acc ++ [v]), r2)
      | _ => none

/-- Read the members of a non-empty JSON object. -/
def parseJObjItems : Nat → List Char → List (String × Json) → Option (Json × List Char)
  | 0, _, _ => none
  | fuel + 1, cs, acc =>
    match skipWs cs with
    | '"' :: r =>
      match parseJString r with
      | none => none
      | some (k, r1) =>
        match skipWs r1 with
        | ':' :: r2 =>
          match parseJValue fuel r2 with
          | none => none
          | some (v, r3) =>
            match skipWs r3 with
            | ',' :: r4 => parseJObjItems fuel r4 (acc ++ [(k, v)])
            | '}' :: r4 => some (.obj (acc ++ [(k, v)]), r4)
            | _ => none
        | _ => none
    | _ => none

end

/-- Decode a complete JSON text: one value, possibly surrounded by
whitespace; anything after the value is an error (as in `json.Unmarshal`). -/
def jsonDecodeTop (s : String) : Option Json :=
  let cs := s.toList
  match parseJValue (2 * cs.length + 2) cs with
  | some (v, rest) => if skipWs rest = [] then some v else none
  | none => none

/-- Overwrite-or-append entry of a Go map rendered as an association list. -/
def mapInsert (m : List (String × Json)) (k : String) (v : Json) :
    List (String × Json) :=
  if m.any (fun p => p.1 = k) then m.map (fun p => if p.1 = k then (k, v) else p)
  else m ++ [(k, v)]

/-- A Go `map[string]any` built from JSON object members (later duplicate
keys overwrite earlier ones). -/
def mapOfMembers (ms : List (String × Json)) : List (String × Json) :=
  ms.foldl (fun m p => mapInsert m p.1 p.2) []

/-- Model of `parseJSONArgs` (convert.go lines 307-317).  Go's
`map[string]any` result is modelled as `Option (List (String × Json))`:
`none` is the nil map (what `json.Unmarshal` leaves behind for the JSON
text `null`), `some l` is a non-nil map holding the entries `l`. -/
def parseJSONArgs (argsJSON : String) : Option (List (String × Json)) :=
  if argsJSON = "" then some []
  else
    match jsonDecodeTop argsJSON with
    | some (.obj members) => some (mapOfMembers members)
    | some .null => none
    | some _ => some []
    | none => some []

/-! ## Moderator decision parsing (`moderator.go` part of embed sources) -/

/-- `ModeratorDecision`: the planner's structured output. -/
structure ModeratorDecision where
  intent : String
  selected : List String
  topic : String
  opening : String
deriving Repr, DecidableEq

instance : Inhabited ModeratorDecision := ⟨⟨"", [], "", ""⟩⟩

/-- All elements of a JSON array decoded as Go `[]string` elements:
strings decode to themselves, `null` leaves the zero value `""`
(`json.Unmarshal` ignores null), anything else is a type error. -/
def decodeStringList : List Json → Option (List String)
  | [] => some []
  | .str s :: rest => (decodeStringList rest).map (fun l => s :: l)
  | .null :: rest => (decodeStringList rest).map (fun l => "" :: l)
  | _ => none

/-- Apply one JSON object member to a partially decoded `ModeratorDecision`,
as `json.Unmarshal` does field by field: unknown keys are ignored, a `null`
value leaves the field untouched, a wrong type is an error, and a repeated
key overwrites the earlier value. -/
def applyDecisionMember (d : ModeratorDecision) (k : String) (v : Json) :
    Option ModeratorDecision :=
  if k = "intent" then
    match v with
    | .str s => some { d with intent := s }
    | .null => some d
    | _ => none
  else if k = "selected" then
    match v with
    | .arr xs => (decodeStringList xs).map (fun l => { d with selected := l })
    | .null => some d
    | _ => none
  else if k = "topic" then
    match v with
    | .str s => some { d with topic := s }
    | .null => some d
    | _ => none
  else if k = "opening" then
    match v with
    | .str s => some { d with opening := s }
    | .null => some d
    | _ => none
  else some d

/-- Fold all members of a decision object. -/
def applyDecisionMembers (d : ModeratorDecision) :
    List (String × Json) → Option ModeratorDecision
  | [] => some d
  | (k, v) :: rest =>
    match applyDecisionMember d k v with
    | some d2 => applyDecisionMembers d2 rest
    | none => none

/-- Model of `json.Unmarshal([]byte(jsonStr), &decision)`: the text must be
one JSON value; an object fills the struct member by member, `null` leaves
the zero value, anything else is a type error. -/
def decodeDecision (jsonStr : String) : Option ModeratorDecision :=
  match jsonDecodeTop jsonStr with
  | some (.obj members) => applyDecisionMembers default members
  | some .null => some default
  | some _ => none
  | none => none

/-! ### `extractJSON` (embed.go lines 1392-1472), ported method by method -/

/-- The backtick character, and the fence patterns looked up by
`extractJSON`. -/
def backtickChar : Char := "`".toList.headD ' '

/-- The pattern of a \`\`\`json fence opening. -/
def fenceJsonPat : List Char := backtickChar :: backtickChar :: backtickChar :: "json".toList

/-- The pattern of a bare \`\`\` fence. -/
def fencePat : List Char := [backtickChar, backtickChar, backtickChar]

/-- Method 4 of `extractJSON`: scan from the first `{` counting brace depth,
skipping over quoted strings and escape sequences, and return the text up to
the brace that closes the first one.  `acc` holds the scanned characters in
reverse. -/
def scanBrace : List Char → Nat → Bool → Bool → List Char → Option (List Char)
  | [], _, _, _, _ => none
  | c :: rest, depth, inString, esc, acc =>
    if esc then scanBrace rest depth inString false (c :: acc)
    else if c = '\\' && inString then scanBrace rest depth inString true (c :: acc)
    else if c = '"' then scanBrace rest depth (!inString) false (c :: acc)
    else if inString then scanBrace rest depth inString false (c :: acc)
    else if c = '{' then scanBrace rest (depth + 1) inString false (c :: acc)
    else if c = '}' then
      if depth = 1 then some (c :: acc).reverse
      else scanBrace rest (depth - 1) inString false (c :: acc)
    else scanBrace rest depth inString false (c :: acc)

/-- Does the text start with `{` (Go `strings.HasPrefix(content, "{")`)? -/
def headIsOpenBrace : List Char → Bool
  | '{' :: _ => true
  | _ => false

/-- Does the text end with `}` (Go `strings.HasSuffix(content, "}")`)? -/
def lastIsCloseBrace (cs : List Char) : Bool :=
  match cs.getLast? with
  | some c => c = '}'
  | none => false

/-- Methods 4 and 5 of `extractJSON`: brace matching from the first `{`,
falling back to the longest `{...}` slice. -/
def extractBraced (content : List Char) : List Char :=
  match splitFirst ['{'] content with
  | none => []
  | some (_, after) =>
    match scanBrace ('{' :: after) 0 false false [] with
    | some r => r
    | none =>
      match upToLast '}' after with
      | some seg => '{' :: seg
      | none => []

/-- Method 3 of `extractJSON`: a bare fenced block, used only when its
trimmed body starts with `{`; otherwise fall through to brace matching. -/
def extractFenced (content : List Char) : List Char :=
  match splitFirst fencePat content with
  | some (_, after) =>
    let afterTag := match splitFirst ['\n'] after with
      | some (_, a) => a
      | none => after
    match splitFirst fencePat afterTag with
    | some (body, _) =>
      let extracted := trimSpaceL body
      if headIsOpenBrace extracted then extracted else extractBraced content
    | none => extractBraced content
  | none => extractBraced content

/-- Model of `extractJSON` (embed.go lines 1392-1472). -/
def extractJSONL (content0 : List Char) : List Char :=
  let content := trimSpaceL content0
  if headIsOpenBrace content && lastIsCloseBrace content then content
  else
    match splitFirst fenceJsonPat content with
    | some (_, after) =>
      match splitFirst fencePat after with
      | some (body, _) => trimSpaceL body
      | none => extractFenced content
    | none => extractFenced content

/-- `extractJSON` on strings. -/
def extractJSON (content : String) : String :=
  ⟨extractJSONL content.toList⟩

/-- Model of `truncateString` (embed.go lines 1475-1480); Go slices bytes,
the model slices characters, which only changes log text. -/
def truncateString (s : String) (maxLen : Nat) : String :=
  if s.toList.length ≤ maxLen then s else ⟨s.toList.take maxLen⟩ ++ "..."

/-- Model of `parseDecision` (embed.go lines 1369-1390). -/
def parseDecision (content0 : String) : Except String ModeratorDecision :=
  let content : String := ⟨trimSpaceL content0.toList⟩
  let jsonStr := extractJSON content
  if jsonStr = "" then
    .error ("无法从响应中提取 JSON: " ++ truncateString content 200)
  else
    match decodeDecision jsonStr with
    | none => .error ("JSON 解析失败, 原文: " ++ truncateString jsonStr 200)
    | some decision =>
      if decision.selected.isEmpty then .error "小韭菜未选择任何专家"
      else .ok decision

/-! ### A canonical serialisation of a decision (what `json.Marshal` emits,
with the two-character escapes for the common control characters) -/

/-- Escape one character for a JSON string literal. -/
def escChar (c : Char) : List Char :=
  if c = '"' then ['\\', '"']
  else if c = '\\' then ['\\', '\\']
  else if c = '\n' then ['\\', 'n']
  else if c = '\r' then ['\\', 'r']
  else if c = '\t' then ['\\', 't']
  else [c]

/-- Escape a character list for a JSON string literal. -/
def escList : List Char → List Char
  | [] => []
  | c :: cs => escChar c ++ escList cs

/-- A JSON string literal (quotes included). -/
def encStrL (s : String) : List Char :=
  '"' :: escList s.toList ++ ['"']

/-- The body of a JSON array of strings, starting after `[`, ending with the
closing `]` (so `encArrL` below is `[` followed by this). -/
def encArrBodyL : List String → List Char
  | [] => [']']
  | [s] => encStrL s ++ [']']
  | s :: rest => encStrL s ++ ',' :: encArrBodyL rest

/-- A JSON array of string literals. -/
def encArrL (l : List String) : List Char :=
  '[' :: encArrBodyL l

/-- The `json.Marshal` serialisation of a `ModeratorDecision` (fields in
struct order, no added whitespace). -/
def serializeDecisionL (d : ModeratorDecision) : List Char :=
  '{' :: encStrL "intent" ++ ':' :: encStrL d.intent ++
  ',' :: encStrL "selected" ++ ':' :: encArrL d.selected ++
  ',' :: encStrL "topic" ++ ':' :: encStrL d.topic ++
  ',' :: encStrL "opening" ++ ':' :: encStrL d.opening ++ ['}']

/-- Serialisation as a string. -/
def serializeDecision (d : ModeratorDecision) : String :=
  ⟨serializeDecisionL d⟩

/-! ## Vendor tool-call markers

Modelled from the spec: `parseVendorToolCalls` and
`FilterVendorToolCallMarkers` (the file defining them is not in the
snapshot; model.go and embed.go only call them).  Per the spec, some servers
embed tool calls as textual sentinel markers inside normal text; the layer
scans the aggregated text, lifts each sentinel into a synthetic call and
removes it from the visible text.  The concrete sentinel syntax is not
specified, so the model fixes a begin/end marker pair and takes the text
between them as one call payload (the payload's interpretation as
name/arguments is likewise unspecified and kept whole as the name). -/

/-- A lifted vendor tool call. -/
structure VendorCall where
  name : String
deriving Repr, DecidableEq

/-- Begin sentinel of a vendor tool-call marker. -/
def vendorBeginPat : List Char := "<tool_call>".toList

/-- End sentinel of a vendor tool-call marker. -/
def vendorEndPat : List Char := "</tool_call>".toList

/-- Scan for sentinel markers; fuel only bounds the loop (every iteration
consumes at least the two markers). -/
def parseVendorAux : Nat → List Char → List VendorCall × List Char
  | 0, cs => ([], cs)
  | fuel + 1, cs =>
    match splitFirst vendorBeginPat cs with
    | none => ([], cs)
    | some (before, after) =>
      match splitFirst vendorEndPat after with
      | none => ([], cs)
      | some (payload, rest) =>
        let (calls, cleaned) := parseVendorAux fuel rest
        (⟨⟨payload⟩⟩ :: calls, before ++ cleaned)

/-- Modelled from the spec: `parseVendorToolCalls`. -/
def parseVendorToolCallsL (cs : List Char) : List VendorCall × List Char :=
  parseVendorAux (cs.length + 1) cs

/-- Modelled from the spec: `FilterVendorToolCallMarkers` — the visible text
with every vendor sentinel removed. -/
def FilterVendorToolCallMarkers (s : String) : String :=
  ⟨(parseVendorToolCallsL s.toList).2⟩

/-! ## genai content parts and LLM responses (the fields the embedded code
reads) -/

/-- `genai.FunctionCall` as used here. -/
structure GFunctionCall where
  id : String
  name : String
  args : Option (List (String × Json))
deriving Repr

/-- `genai.FunctionResponse` as used here; `responseJSON` stands for the
`json.Marshal` of its `Response` map. -/
structure GFunctionResponse where
  id : String
  name : String
  responseJSON : String
deriving Repr

/-- `genai.Part` (text / thought flag / function call / function response). -/
structure GPart where
  text : String
  thought : Bool
  functionCall : Option GFunctionCall
  functionResponse : Option GFunctionResponse
deriving Repr

/-- A plain text part. -/
def textPart (s : String) : GPart := ⟨s, false, none, none⟩

/-- A reasoning ("thought") text part. -/
def thoughtPart (s : String) : GPart := ⟨s, true, none, none⟩

/-- A function-call part. -/
def callPart (fc : GFunctionCall) : GPart := ⟨"", false, some fc, none⟩

/-- `genai.Content`. -/
structure GContent where
  role : String
  parts : List GPart
deriving Repr

/-- `model.LLMResponse` (the fields the embedded code reads). -/
structure LLMResponse where
  content : Option GContent
  isPartial : Bool
  turnComplete : Bool
deriving Repr

/-! ## `processStream` (model.go lines 103-253), clean end-of-stream path

A received chunk is modelled by its first choice's deltas; the consumer in
this program always drains the whole sequence, and the claims concern turns
whose stream ends normally, so the mid-stream error and cancellation exits
are not modelled. -/

/-- One streamed tool-call fragment (`openai.ToolCall` delta). -/
structure ToolCallDelta where
  index : Option Nat
  id : String
  name : String
  args : String
deriving Repr

/-- One choice of a streamed chunk. -/
structure StreamChoice where
  deltaContent : String
  deltaReasoning : String
  deltaToolCalls : List ToolCallDelta
  finishReason : String
deriving Repr

/-- One received stream chunk. -/
structure StreamChunk where
  choices : List StreamChoice
  usage : Option (Nat × Nat × Nat)
deriving Repr

/-- `toolCallBuilder` (model.go lines 256-260). -/
structure ToolCallBuilder where
  id : String
  name : String
  args : String
deriving Repr

/-- Aggregation state of `processStream`. -/
structure StreamState where
  textContent : String
  reasoningContent : String
  toolCallsMap : List (Nat × ToolCallBuilder)
  finishReason : String
  usage : Option (Nat × Nat × Nat)
deriving Repr

/-- The initial aggregation state. -/
def initStreamState : StreamState := ⟨"", "", [], "", none⟩

/-- Look up a tool-call builder slot. -/
def tcGet (m : List (Nat × ToolCallBuilder)) (i : Nat) : Option ToolCallBuilder :=
  (m.find? (fun p => p.1 = i)).map Prod.snd

/-- Store a tool-call builder slot (Go map write; insertion order kept for
new keys, which `sortedKeys` below re-sorts anyway). -/
def tcSet (m : List (Nat × ToolCallBuilder)) (i : Nat) (b : ToolCallBuilder) :
    List (Nat × ToolCallBuilder) :=
  if m.any (fun p => p.1 = i) then m.map (fun p => if p.1 = i then (i, b) else p)
  else m ++ [(i, b)]

/-- Fold one tool-call delta into the builder map (model.go lines 164-182). -/
def applyToolCallDelta (m : List (Nat × ToolCallBuilder)) (tc : ToolCallDelta) :
    List (Nat × ToolCallBuilder) :=
  let idx := tc.index.getD 0
  let b := (tcGet m idx).getD ⟨"", "", ""⟩
  let b1 := { b with id := if tc.id ≠ "" then tc.id else b.id }
  let b2 := { b1 with name := if tc.name ≠ "" then tc.name else b1.name }
  tcSet m idx { b2 with args := b2.args ++ tc.args }

/-- A partial (streaming) response holding one part. -/
def partialResp (p : GPart) : LLMResponse :=
  ⟨some ⟨"model", [p]⟩, true, false⟩

/-- Process one received chunk: the responses yielded for it and the updated
aggregation state (model.go loop body, lines 115-197). -/
def processChunk (st : StreamState) (c : StreamChunk) : StreamState × List LLMResponse :=
  match c.choices with
  | [] => (st, [])
  | choice :: _ =>
    let (st1, ys1) :=
      if choice.deltaReasoning ≠ "" then
        ({ st with reasoningContent := st.reasoningContent ++ choice.deltaReasoning },
         [partialResp (thoughtPart choice.deltaReasoning)])
      else (st, [])
    let (st2, ys2) :=
      if choice.deltaContent ≠ "" then
        ({ st1 with textContent := st1.textContent ++ choice.deltaContent },
         [partialResp (textPart choice.deltaContent)])
      else (st1, [])
    let st3 := { st2 with toolCallsMap := choice.deltaToolCalls.foldl applyToolCallDelta st2.toolCallsMap }
    let st4 := if choice.finishReason ≠ "" then { st3 with finishReason := choice.finishReason } else st3
    let st5 := match c.usage with
      | some u => { st4 with usage := some u }
      | none => st4
    (st5, ys1 ++ ys2)

/-- Process all received chunks. -/
def processChunksLoop : StreamState → List StreamChunk → StreamState × List LLMResponse
  | st, [] => (st, [])
  | st, c :: rest =>
    let (st1, ys) := processChunk st c
    let (st2, ys2) := processChunksLoop st1 rest
    (st2, ys ++ ys2)

/-- The map keys in ascending order (`sortedKeys`, model.go lines 263-270). -/
def sortedKeys (m : List (Nat × ToolCallBuilder)) : List Nat :=
  (m.map Prod.fst).mergeSort (· ≤ ·)

/-- The final aggregated response (model.go lines 199-252). -/
def finalResponse (st : StreamState) : LLMResponse :=
  let textParts : List GPart :=
    if st.textContent ≠ "" then
      let (vendorCalls, cleanedText) := parseVendorToolCallsL st.textContent.toList
      (if cleanedText ≠ [] then [textPart ⟨cleanedText⟩] else []) ++
        (vendorCalls.enum.map fun p =>
          callPart ⟨"vendor_call_" ++ toString p.1, p.2.name, some []⟩)
    else []
  let withThought :=
    if st.reasoningContent ≠ "" then thoughtPart st.reasoningContent :: textParts else textParts
  let allParts := withThought ++ (sortedKeys st.toolCallsMap).filterMap fun i =>
    (tcGet st.toolCallsMap i).map fun b => callPart ⟨b.id, b.name, parseJSONArgs b.args⟩
  ⟨some ⟨"model", allParts⟩, false, true⟩

/-- Model of `processStream` on a cleanly terminated stream: all partial
responses followed by the final aggregated response. -/
def processStream (chunks : List StreamChunk) : List LLMResponse :=
  let (st, ys) := processChunksLoop initStreamState chunks
  ys ++ [finalResponse st]

/-! ## The expert turn drain loop (`embed.go` : `runSingleAgentWithHistory`,
lines 816-915)

The ADK runner is external to the snapshot; per the spec's provider
contract, it forwards each model response as an event whose `LLMResponse`
field is that response, so an expert turn is modelled as draining a list of
`LLMResponse` values. -/

/-- `models.AgentConfig`: the struct declaration itself is not under the
snapshot's sources; the fields are the ones the embedded code reads. -/
structure AgentConfig where
  id : String
  name : String
  role : String
  instruction : String
  enabled : Bool
  aiConfigID : String
deriving Repr, DecidableEq

/-- `ProgressEvent` (embed.go lines 217-223). -/
structure ProgressEvent where
  type : String
  agentID : String
  agentName : String
  detail : String
  content : String
deriving Repr, DecidableEq

/-- Drain one part of one event (embed.go lines 871-910): tool-call and
tool-result beacons, and accumulation of the partial text deltas together
with their `streaming` events.  The accumulator is the pair
(content so far, events emitted so far). -/
def drainPart (cfg : AgentConfig) (isPart : Bool) (st : String × List ProgressEvent)
    (p : GPart) : String × List ProgressEvent :=
  if p.thought then st
  else
    let evs1 := match p.functionCall with
      | some fc => st.2 ++ [⟨"tool_call", cfg.id, cfg.name, fc.name, ""⟩]
      | none => st.2
    let evs2 := match p.functionResponse with
      | some fr => evs1 ++ [⟨"tool_result", cfg.id, cfg.name, fr.name, ""⟩]
      | none => evs1
    if p.text ≠ "" then
      if isPart then
        (st.1 ++ p.text, evs2 ++ [⟨"streaming", cfg.id, cfg.name, "", p.text⟩])
      else (st.1, evs2)
    else (st.1, evs2)

/-- Drain one runner event. -/
def drainEvent (cfg : AgentConfig) (st : String × List ProgressEvent)
    (ev : LLMResponse) : String × List ProgressEvent :=
  match ev.content with
  | none => st
  | some c => c.parts.foldl (drainPart cfg ev.isPartial) st

/-- Drain an event list. -/
def drainEvents (cfg : AgentConfig) (evs : List LLMResponse) :
    String × List ProgressEvent :=
  evs.foldl (drainEvent cfg) ("", [])

/-- Model of `runSingleAgentWithHistory`'s event loop and return value: the
turn's final visible text (vendor sentinels filtered from the accumulated
partial deltas) and the progress events it emitted. -/
def runSingleAgentTurn (cfg : AgentConfig) (evs : List LLMResponse) :
    String × List ProgressEvent :=
  let (content, progress) := drainEvents cfg evs
  (FilterVendorToolCallMarkers content, progress)

/-- The contents of the `streaming` events among some progress events. -/
def streamingContents (evs : List ProgressEvent) : List String :=
  (evs.filter (fun e => e.type = "streaming")).map (fun e => e.content)

/-! ## Chat-completion request building (convert.go / model.go)

The snapshot's convert.go predates the `noSystemRole` flag that model.go
passes (`toOpenAIChatCompletionRequest(req, o.ModelName, o.NoSystemRole)`);
the flag's handling is modelled from the spec ("If the server rejects a
`system` role, the top-system content is re-written as the first `user`
message"; config table: "noSystemRole=true | rewrite system messages as
user messages").  Everything else follows the snapshot's convert.go.
Float-typed pass-through fields (temperature, topP) are not modelled. -/

mutual

/-- Render a `Json` value back to text (model of `json.Marshal` for the
values the code marshals). -/
def renderJson : Json → List Char
  | .null => "null".toList
  | .bool true => "true".toList
  | .bool false => "false".toList
  | .num raw => raw.toList
  | .str s => encStrL s
  | .arr l => '[' :: renderJsonSeq l
  | .obj l => '{' :: renderJsonMembers l

/-- Render array elements (with the closing bracket). -/
def renderJsonSeq : List Json → List Char
  | [] => [']']
  | [v] => renderJson v ++ [']']
  | v :: rest => renderJson v ++ ',' :: renderJsonSeq rest

/-- Render object members (with the closing brace). -/
def renderJsonMembers : List (String × Json) → List Char
  | [] => ['}']
  | [(k, v)] => encStrL k ++ ':' :: renderJson v ++ ['}']
  | (k, v) :: rest => encStrL k ++ ':' :: renderJson v ++ ',' :: renderJsonMembers rest

end

/-- `json.Marshal` of a function-call argument map (`nil` maps marshal to
`null`). -/
def marshalArgs : Option (List (String × Json)) → String
  | none => "null"
  | some m => ⟨'{' :: renderJsonMembers m⟩

/-- `openai.ToolCall` as built by the converter. -/
structure OToolCall where
  id : String
  name : String
  arguments : String
deriving Repr, DecidableEq

/-- `openai.ChatCompletionMessage` (fields used). -/
structure ChatMessage where
  role : String
  content : String
  reasoningContent : String
  toolCallID : String
  toolCalls : List OToolCall
deriving Repr, DecidableEq

/-- A message with only role/content set. -/
def mkRoleMsg (role content : String) : ChatMessage := ⟨role, content, "", "", []⟩

/-- `convertRoleToOpenAI` (convert.go lines 170-181). -/
def convertRoleToOpenAI (role : String) : String :=
  if role = "user" then "user"
  else if role = "model" then "assistant"
  else if role = "system" then "system"
  else "user"

/-- `extractTextFromContent` (convert.go lines 184-202). -/
def extractTextFromContent : Option GContent → String
  | none => ""
  | some c =>
    let texts := (c.parts.filter (fun p => p.text ≠ "")).map (fun p => p.text)
    match texts with
    | [] => ""
    | t :: rest => rest.foldl (fun acc s => acc ++ "\n" ++ s) t

/-- `toOpenAIChatCompletionMessage` (convert.go lines 87-167): function
responses become tool-role messages; the parts after the last function
response are merged into one message with text, reasoning text and tool
calls separated. -/
def toOpenAIChatCompletionMessage (content : GContent) : List ChatMessage :=
  let step := fun (acc : List ChatMessage × Nat) (p : Nat × GPart) =>
    match p.2.functionResponse with
    | some fr =>
      (acc.1 ++ [{ mkRoleMsg "tool" fr.responseJSON with toolCallID := fr.id }], p.1 + 1)
    | none => acc
  let (toolRespMessages, skipIdx) := (content.parts.enum).foldl step ([], 0)
  let parts := content.parts.drop skipIdx
  if parts.isEmpty then toolRespMessages
  else
    let textContent := String.join ((parts.filter
      (fun p => ¬ p.thought ∧ p.text ≠ "")).map (fun p => p.text))
    let reasoningContent := String.join ((parts.filter
      (fun p => p.thought ∧ p.text ≠ "")).map (fun p => p.text))
    let toolCalls := parts.filterMap fun p =>
      p.functionCall.map fun fc => OToolCall.mk fc.id fc.name (marshalArgs fc.args)
    let msg : ChatMessage :=
      { role := convertRoleToOpenAI content.role
        content := textContent
        reasoningContent := reasoningContent
        toolCallID := ""
        toolCalls := toolCalls }
    toolRespMessages ++ [msg]

/-- `genai.FunctionDeclaration` for tools (only presence of a parameter
schema is observable here). -/
structure FuncDecl where
  name : String
  description : String
  hasParams : Bool
deriving Repr, DecidableEq

/-- `openai.Tool` as built by `convertTools`. -/
structure OTool where
  name : String
  description : String
deriving Repr, DecidableEq

/-- `convertTools` (convert.go lines 205-233): fails when a declaration has
no parameter schema at all. -/
def convertTools (decls : List FuncDecl) : Except String (List OTool) :=
  match decls with
  | [] => .ok []
  | d :: rest =>
    if d.hasParams then (convertTools rest).map (fun l => OTool.mk d.name d.description :: l)
    else .error ("parameters is nil for tool " ++ d.name)

/-- `model.LLMRequest` configuration (fields read by the converter;
float-typed fields omitted). -/
structure GenConfig where
  thinkingLevel : Option String
  tools : List FuncDecl
  maxOutputTokens : Int
  stopSequences : List String
  systemInstruction : Option GContent
  responseMIMEType : String
deriving Repr

/-- `model.LLMRequest`. -/
structure LLMRequest where
  contents : List GContent
  config : Option GenConfig
deriving Repr

/-- `openai.ChatCompletionRequest` (fields set by the converter). -/
structure OpenAIRequest where
  model : String
  messages : List ChatMessage
  reasoningEffort : String
  maxTokens : Int
  stop : List String
  jsonResponseFormat : Bool
  tools : List OTool
deriving Repr

/-- Rewrite a system-role message as a user-role message. -/
def rewriteSystemMsg (m : ChatMessage) : ChatMessage :=
  if m.role = "system" then { m with role := "user" } else m

/-- `toOpenAIChatCompletionRequest(req, modelName, noSystemRole)` as called
by model.go.  The body follows the snapshot's convert.go (lines 13-83); the
`noSystemRole` handling is modelled from the spec: the top system content
becomes the first `user` message and any system-role message is rewritten
to the `user` role. -/
def toOpenAIChatCompletionRequest (req : LLMRequest) (modelName : String)
    (noSystemRole : Bool) : Except String OpenAIRequest :=
  let baseMessages := req.contents.flatMap toOpenAIChatCompletionMessage
  let reasoningEffort := match req.config with
    | some cfg =>
      match cfg.thinkingLevel with
      | some lvl => if lvl = "low" then "low" else if lvl = "high" then "high" else "medium"
      | none => ""
    | none => ""
  let toolsResult := match req.config with
    | some cfg => if cfg.tools.isEmpty then Except.ok [] else convertTools cfg.tools
    | none => .ok []
  match toolsResult with
  | .error e => .error e
  | .ok tools =>
    let (messages, maxTokens, stop, jsonFmt) := match req.config with
      | some cfg =>
        let msgs := match cfg.systemInstruction with
          | some si =>
            let sysMsg := mkRoleMsg (if noSystemRole then "user" else "system")
              (extractTextFromContent (some si))
            sysMsg :: baseMessages
          | none => baseMessages
        (msgs, (if cfg.maxOutputTokens > 0 then cfg.maxOutputTokens else 0),
          cfg.stopSequences, cfg.responseMIMEType == "application/json")
      | none => (baseMessages, 0, [], false)
    let messages := if noSystemRole then messages.map rewriteSystemMsg else messages
    .ok { model := modelName
          messages := messages
          reasoningEffort := reasoningEffort
          maxTokens := maxTokens
          stop := stop
          jsonResponseFormat := jsonFmt
          tools := tools }

/-! ## The smart-meeting orchestrator (`embed.go` : `RunSmartMeetingWithCallback`,
`HasInterruptedMeeting`, `ContinueMeeting`, `runMeetingSummary`)

External calls (model creation, the moderator's analyze/summarize requests,
each expert's retry-wrapped turn, the meeting deadline) are oracles recorded
in a `SmartOracle`; the orchestrator itself is the pure function
`runSmartMeetingModel`.  Time is a `Nat` nanosecond count. -/

/-- `models.Stock` (the float-typed market fields are display data used
only inside prompt text and are not modelled). -/
structure Stock where
  symbol : String
  name : String
deriving Repr, DecidableEq

/-- `models.StockPosition` (cost price is float display data, omitted). -/
structure StockPosition where
  shares : Int
deriving Repr, DecidableEq

/-- `models.AIConfig` (only its identity matters to the orchestration). -/
structure AIConfig where
  modelName : String
deriving Repr, DecidableEq

/-- `DiscussionEntry` (moderator sources). -/
structure DiscussionEntry where
  round : Nat
  agentID : String
  agentName : String
  role : String
  content : String
deriving Repr, DecidableEq

/-- `ChatResponse` (embed.go lines 201-210). -/
structure ChatResponse where
  agentID : String
  agentName : String
  role : String
  content : String
  round : Nat
  msgType : String
  error : String
  meetingMode : String
deriving Repr, DecidableEq

/-- `ChatRequest` (the fields the smart path reads). -/
structure ChatRequest where
  stockCode : String
  stock : Stock
  query : String
  allAgents : List AgentConfig
  position : Option StockPosition
deriving Repr

/-- `MeetingState` (embed.go lines 121-134); the stock-memory and moderator
references carry no orchestration-relevant data and are omitted. -/
structure MeetingState where
  aiConfig : Option AIConfig
  stock : Stock
  query : String
  position : Option StockPosition
  selectedAgents : List AgentConfig
  history : List DiscussionEntry
  responses : List ChatResponse
  failedIndex : Nat
  memoryContext : String
  createdAt : Nat
deriving Repr

/-- `MeetingStateTTL` (10 minutes, in nanoseconds). -/
def MeetingStateTTL : Nat := 10 * 60 * 1000000000

/-- Outcome of one expert turn after `retryRun` (and of the LLM-handle
creation that precedes it). -/
inductive AgentOutcome where
  | createFail
  | fail (msg : String)
  | ok (content : String)
deriving Repr, DecidableEq

/-- Outcome of the moderator's analyze call. -/
inductive AnalyzeResult where
  | timeout
  | failed (msg : String)
  | ok (d : ModeratorDecision)
deriving Repr, DecidableEq

/-- The oracle recording every external outcome of one smart-meeting run. -/
structure SmartOracle where
  modelCreateFail : Bool
  analyze : AnalyzeResult
  agentOutcome : Nat → AgentOutcome
  timeoutAt : Option Nat
  summary : Except String String
  memoryContext : String

/-- Is the meeting deadline exceeded at the check before loop index `i`? -/
def meetingTimedOut (o : SmartOracle) (i : Nat) : Bool :=
  match o.timeoutAt with
  | some t => t ≤ i
  | none => false

/-- Errors returned by the orchestration (all concrete `error` values of
embed.go's smart path). -/
inductive MeetingErr where
  | noAIConfig
  | noAgents
  | createModel
  | moderatorTimeout
  | analyzeFailed (msg : String)
  | meetingTimeout
deriving Repr, DecidableEq

/-- `filterAgentsOrdered` (embed.go lines 755-767): a Go map from id to
config (later entries overwrite earlier ones) then one lookup per selected
id, keeping the selected order and skipping unknown ids. -/
def filterAgentsOrdered (all : List AgentConfig) (ids : List String) : List AgentConfig :=
  ids.filterMap (fun aid => all.reverse.find? (fun a => a.id = aid))

/-- The moderator's opening response (embed.go lines 355-363). -/
def openingResp (d : ModeratorDecision) : ChatResponse :=
  ⟨"moderator", "小韭菜", "会议主持", d.opening, 0, "opening", "", "smart"⟩

/-- A successful expert opinion (embed.go lines 514-522). -/
def okOpinionResp (cfg : AgentConfig) (content : String) : ChatResponse :=
  ⟨cfg.id, cfg.name, cfg.role, content, 1, "opinion", "", "smart"⟩

/-- A failed expert opinion (embed.go lines 450-459). -/
def failedOpinionResp (cfg : AgentConfig) (msg : String) : ChatResponse :=
  ⟨cfg.id, cfg.name, cfg.role, "", 1, "opinion", msg, "smart"⟩

/-- The final summary response (embed.go lines 584-592). -/
def summaryResp (s : String) : ChatResponse :=
  ⟨"moderator", "小韭菜", "会议主持", s, 2, "summary", "", "smart"⟩

/-- A transcript entry for a completed turn (embed.go lines 529-535). -/
def mkEntry (cfg : AgentConfig) (content : String) : DiscussionEntry :=
  ⟨1, cfg.id, cfg.name, cfg.role, content⟩

/-- How the serial expert loop ended. -/
inductive LoopExit where
  | timedOut
  | interrupted (failedIndex : Nat) (errMsg : String)
  | completed
deriving Repr, DecidableEq

/-- The serial expert loop (embed.go lines 378-538): before each turn the
meeting deadline is checked; a failed LLM-handle creation skips the expert;
a turn that still fails after retries appends an error-tagged response and
breaks; a successful turn appends a response and a transcript entry. -/
def runExpertsLoop (o : SmartOracle) :
    List AgentConfig → Nat → List ChatResponse → List DiscussionEntry →
    List ChatResponse × List DiscussionEntry × LoopExit
  | [], _, responses, history => (responses, history, .completed)
  | cfg :: rest, i, responses, history =>
    if meetingTimedOut o i then (responses, history, .timedOut)
    else
      match o.agentOutcome i with
      | .createFail => runExpertsLoop o rest (i + 1) responses history
      | .fail msg => (responses ++ [failedOpinionResp cfg msg], history, .interrupted i msg)
      | .ok content =>
        runExpertsLoop o rest (i + 1) (responses ++ [okOpinionResp cfg content])
          (history ++ [mkEntry cfg content])

/-- The summary step shared by the inline block (embed.go lines 551-597)
and `runMeetingSummary` (lines 1183-1241): any error — timeout included —
is non-fatal and only skips the summary; an empty summary is skipped too. -/
def runMeetingSummary (summaryOutcome : Except String String)
    (_history : List DiscussionEntry) (responses : List ChatResponse) :
    List ChatResponse × Option MeetingErr :=
  match summaryOutcome with
  | .error _ => (responses, none)
  | .ok s => if s = "" then (responses, none) else (responses ++ [summaryResp s], none)

/-- The interrupt state cached after a failed turn (embed.go lines 467-480). -/
def mkMeetingState (aiConfig : Option AIConfig) (req : ChatRequest)
    (selected : List AgentConfig) (history : List DiscussionEntry)
    (responses : List ChatResponse) (failedIndex : Nat) (memoryContext : String)
    (now : Nat) : MeetingState :=
  ⟨aiConfig, req.stock, req.query, req.position, selected, history, responses,
    failedIndex, memoryContext, now⟩

/-- The observable outcome of one smart-meeting run: the returned response
list and error, plus the interrupt state the run cached (if any). -/
structure MeetingResult where
  responses : List ChatResponse
  error : Option MeetingErr
  cacheWrite : Option MeetingState
deriving Repr

/-- Model of `RunSmartMeetingWithCallback` (embed.go lines 249-615). -/
def runSmartMeetingModel (aiConfig : Option AIConfig) (req : ChatRequest)
    (o : SmartOracle) (now : Nat) : MeetingResult :=
  if aiConfig.isNone then ⟨[], some .noAIConfig, none⟩
  else if req.allAgents.isEmpty then ⟨[], some .noAgents, none⟩
  else if o.modelCreateFail then ⟨[], some .createModel, none⟩
  else
    match o.analyze with
    | .timeout => ⟨[], some .moderatorTimeout, none⟩
    | .failed msg => ⟨[], some (.analyzeFailed msg), none⟩
    | .ok d =>
      let opening := openingResp d
      let selected := filterAgentsOrdered req.allAgents d.selected
      if selected.isEmpty then ⟨[opening], none, none⟩
      else
        match runExpertsLoop o selected 0 [opening] [] with
        | (resps, _, .timedOut) => ⟨resps, some .meetingTimeout, none⟩
        | (resps, hist, .interrupted i _) =>
          if req.stockCode ≠ "" then
            ⟨resps, none,
              some (mkMeetingState aiConfig req selected hist resps i o.memoryContext now)⟩
          else
            ⟨(runMeetingSummary o.summary hist resps).1,
              (runMeetingSummary o.summary hist resps).2, none⟩
        | (resps, hist, .completed) =>
          ⟨(runMeetingSummary o.summary hist resps).1,
            (runMeetingSummary o.summary hist resps).2, none⟩

/-! ### Interrupt-state cache operations -/

/-- The process-wide `meetingStates` map as an association list. -/
def stateLookup (states : List (String × MeetingState)) (code : String) :
    Option MeetingState :=
  (states.find? (fun p => p.1 = code)).map Prod.snd

/-- Delete a cache entry. -/
def stateDelete (states : List (String × MeetingState)) (code : String) :
    List (String × MeetingState) :=
  states.filter (fun p => p.1 ≠ code)

/-- Store a cache entry (`cacheMeetingState`). -/
def stateStore (states : List (String × MeetingState)) (code : String)
    (st : MeetingState) : List (String × MeetingState) :=
  stateDelete states code ++ [(code, st)]

/-- Model of `HasInterruptedMeeting` (embed.go lines 1015-1027). -/
def hasInterruptedMeeting (states : List (String × MeetingState)) (now : Nat)
    (code : String) : Bool :=
  match stateLookup states code with
  | none => false
  | some st => if now - st.createdAt > MeetingStateTTL then false else true

/-- What `ContinueMeeting` returns, plus the cache map it leaves behind. -/
structure ContinueOutcome where
  result : Except String (List ChatResponse × Option MeetingErr)
  statesAfter : List (String × MeetingState)

/-- Model of `ContinueMeeting` (embed.go lines 1030-1180): the cached state
is taken out (deleted even when expired); a missing or expired state is a
descriptive error; otherwise execution resumes at the failed index under a
fresh meeting deadline, re-caching on a new failure and summarizing
(non-fatally) on completion. -/
def continueMeetingModel (states : List (String × MeetingState)) (now : Nat)
    (code : String) (o : SmartOracle) : ContinueOutcome :=
  match stateLookup states code with
  | none => ⟨.error "没有可恢复的会议状态", states⟩
  | some st =>
    let states1 := stateDelete states code
    if now - st.createdAt > MeetingStateTTL then ⟨.error "没有可恢复的会议状态", states1⟩
    else
      match runExpertsLoop o (st.selectedAgents.drop st.failedIndex) st.failedIndex
          st.responses st.history with
      | (resps, _, .timedOut) => ⟨.ok (resps, some .meetingTimeout), states1⟩
      | (resps, hist, .interrupted i _) =>
        let newState : MeetingState :=
          { st with history := hist, responses := resps, failedIndex := i, createdAt := now }
        ⟨.ok (resps, none), stateStore states1 code newState⟩
      | (resps, hist, .completed) => ⟨.ok (runMeetingSummary o.summary hist resps), states1⟩

end JcpModel

namespace JcpModel

/-- C3: for every non-nil error, `isRetryableError` answers true exactly
when the error is neither a cancellation nor a deadline-exceeded and its
message contains neither "config" nor "not found". -/
theorem isRetryableError_some (e : GoError) :
    isRetryableError (some e) = true ↔
      e.canceled = false ∧ e.deadlineExceeded = false ∧
      strContains e.msg "config" = false ∧ strContains e.msg "not found" = false := by
  obtain ⟨c, d, m⟩ := e
  simp only [isRetryableError]
  cases c <;> cases d <;>
    by_cases h3 : strContains m "config" <;>
    by_cases h4 : strContains m "not found" <;>
    simp [h3, h4]

/-! ### Characterisation of the serial expert loop -/

/-- The responses the serial loop appends, described directly: stop at the
deadline, skip creation failures, stop after the first failed turn. -/
def turnResponses (o : SmartOracle) : List AgentConfig → Nat → List ChatResponse
  | [], _ => []
  | cfg :: rest, i =>
    if meetingTimedOut o i then []
    else
      match o.agentOutcome i with
      | .createFail => turnResponses o rest (i + 1)
      | .fail msg => [failedOpinionResp cfg msg]
      | .ok content => okOpinionResp cfg content :: turnResponses o rest (i + 1)

/-- The loop returns exactly the input responses extended by
`turnResponses`, whatever its exit. -/
theorem runExpertsLoop_responses (o : SmartOracle) :
    ∀ (sel : List AgentConfig) (i : Nat) (resps : List ChatResponse)
      (hist : List DiscussionEntry),
      (runExpertsLoop o sel i resps hist).1 = resps ++ turnResponses o sel i := by
  intro sel
  induction sel with
  | nil => intro i resps hist; simp [runExpertsLoop, turnResponses]
  | cons cfg rest ih =>
    intro i resps hist
    simp only [runExpertsLoop, turnResponses]
    by_cases ht : meetingTimedOut o i
    · simp [ht]
    · simp only [ht, Bool.false_eq_true, if_false]
      cases h : o.agentOutcome i with
      | createFail => simpa using ih (i + 1) resps hist
      | fail msg => simp
      | ok content => simp [ih (i + 1)]

/-- Every appended loop response is a round-1 opinion in smart mode, and
their agent ids follow the selected order (a sublist of it). -/
theorem turnResponses_shape (o : SmartOracle) :
    ∀ (sel : List AgentConfig) (i : Nat),
      (∀ e ∈ turnResponses o sel i,
        e.msgType = "opinion" ∧ e.round = 1 ∧ e.meetingMode = "smart") ∧
      List.Sublist ((turnResponses o sel i).map (fun e => e.agentID))
        (sel.map (fun a => a.id)) := by
  intro sel
  induction sel with
  | nil => intro i; simp [turnResponses]
  | cons cfg rest ih =>
    intro i
    simp only [turnResponses]
    by_cases ht : meetingTimedOut o i
    · simp [ht]
    · simp only [ht, Bool.false_eq_true, if_false]
      cases h : o.agentOutcome i with
      | createFail =>
        refine ⟨(ih (i + 1)).1, ?_⟩
        exact ((ih (i + 1)).2).cons cfg.id
      | fail msg =>
        constructor
        · intro e he
          simp only [List.mem_singleton] at he
          subst he
          exact ⟨rfl, rfl, rfl⟩
        · simp [failedOpinionResp]
      | ok content =>
        constructor
        · intro e he
          rcases List.mem_cons.mp he with h1 | h2
          · subst h1; exact ⟨rfl, rfl, rfl⟩
          · exact (ih (i + 1)).1 e h2
        · simpa [okOpinionResp] using ((ih (i + 1)).2).cons₂ cfg.id

/-- With no deadline and every turn succeeding, the loop produces one
opinion per selected expert, in order, with the oracle's content. -/
theorem turnResponses_all_ok (o : SmartOracle) (f : Nat → String)
    (hnt : o.timeoutAt = none) (hok : ∀ j, o.agentOutcome j = .ok (f j)) :
    ∀ (sel : List AgentConfig) (i : Nat),
      turnResponses o sel i = (sel.enumFrom i).map (fun p => okOpinionResp p.2 (f p.1)) := by
  intro sel
  induction sel with
  | nil => intro i; simp [turnResponses]
  | cons cfg rest ih =>
    intro i
    simp only [turnResponses, meetingTimedOut, hnt, hok i, List.enumFrom, List.map_cons]
    simp only [ih (i + 1)]
    simp

end JcpModel

namespace JcpModel

/-- The summary step never reports an error. -/
theorem runMeetingSummary_error_none (s : Except String String)
    (hist : List DiscussionEntry) (resps : List ChatResponse) :
    (runMeetingSummary s hist resps).2 = none := by
  cases s with
  | error e => rfl
  | ok str =>
    by_cases h : str = "" <;> simp [runMeetingSummary, h]

/-- The summary step returns the input responses, optionally extended by
one summary entry. -/
theorem runMeetingSummary_responses (s : Except String String)
    (hist : List DiscussionEntry) (resps : List ChatResponse) :
    (runMeetingSummary s hist resps).1 = resps ∨
      ∃ str, (runMeetingSummary s hist resps).1 = resps ++ [summaryResp str] := by
  cases s with
  | error e => exact Or.inl rfl
  | ok str =>
    by_cases h : str = ""
    · exact Or.inl (by simp [runMeetingSummary, h])
    · exact Or.inr ⟨str, by simp [runMeetingSummary, h]⟩

/-- The opinion entries of a response list. -/
def opinionResponses (rs : List ChatResponse) : List ChatResponse :=
  rs.filter (fun r => r.msgType = "opinion")

/-- Filtering a well-formed smart-meeting response list down to opinions
recovers exactly the loop entries. -/
theorem opinionResponses_meeting (d : ModeratorDecision) (turn tail : List ChatResponse)
    (hturn : ∀ e ∈ turn, e.msgType = "opinion")
    (htail : tail = [] ∨ ∃ s, tail = [summaryResp s]) :
    opinionResponses (openingResp d :: turn ++ tail) = turn := by
  unfold opinionResponses
  simp only [List.filter_cons, List.filter_append]
  have h0 : (decide ((openingResp d).msgType = "opinion")) = false := by
    simp [openingResp]
  have h1 : turn.filter (fun r => r.msgType = "opinion") = turn :=
    List.filter_eq_self.mpr (fun a ha => by simp [hturn a ha])
  have h2 : tail.filter (fun r => r.msgType = "opinion") = [] := by
    rcases htail with rfl | ⟨s, rfl⟩
    · rfl
    · simp [summaryResp]
  simp [h0, h1, h2]

/-- With no deadline and all turns succeeding the loop completes. -/
theorem runExpertsLoop_all_ok_exit (o : SmartOracle) (f : Nat → String)
    (hnt : o.timeoutAt = none) (hok : ∀ j, o.agentOutcome j = .ok (f j)) :
    ∀ (sel : List AgentConfig) (i : Nat) (resps : List ChatResponse)
      (hist : List DiscussionEntry),
      (runExpertsLoop o sel i resps hist).2.2 = .completed := by
  intro sel
  induction sel with
  | nil => intro i resps hist; rfl
  | cons cfg rest ih =>
    intro i resps hist
    simp only [runExpertsLoop, meetingTimedOut, hnt, hok i]
    exact ih (i + 1) _ _

end JcpModel

namespace JcpModel

/-- C9: `filterAgentsOrdered` performs no deduplication: the result has one
entry per occurrence of each selected id that exists in the pool, in the
selected order; consequently, when the planner repeats a known expert id and
every turn succeeds, the smart meeting records one opinion per occurrence,
in that order. -/
theorem c9_filterAgentsOrdered_no_dedup :
    (∀ (all : List AgentConfig) (ids : List String),
      (filterAgentsOrdered all ids).map (fun a => a.id) =
        ids.filter (fun aid => all.any (fun a => a.id = aid))) ∧
    (∀ (aiConfig : AIConfig) (req : ChatRequest) (o : SmartOracle) (now : Nat)
        (d : ModeratorDecision) (f : Nat → String),
      o.analyze = .ok d → o.timeoutAt = none →
      (∀ j, o.agentOutcome j = .ok (f j)) →
      req.allAgents.isEmpty = false → o.modelCreateFail = false →
      (opinionResponses (runSmartMeetingModel (some aiConfig) req o now).responses).map
          (fun r => r.agentID) =
        (filterAgentsOrdered req.allAgents d.selected).map (fun a => a.id)) := by
  constructor
  · intro all ids
    induction ids with
    | nil => rfl
    | cons aid rest ih =>
      simp only [filterAgentsOrdered] at ih ⊢
      cases h : all.reverse.find? (fun a => a.id = aid) with
      | none =>
        have hany : all.any (fun a => a.id = aid) = false := by
          rw [Bool.eq_false_iff]
          intro hx
          rw [List.any_eq_true] at hx
          obtain ⟨x, hx1, hx2⟩ := hx
          have hs : (all.reverse.find? (fun a => a.id = aid)).isSome := by
            rw [List.find?_isSome]
            exact ⟨x, List.mem_reverse.mpr hx1, hx2⟩
          rw [h] at hs
          simp at hs
        simp [List.filterMap_cons, h, List.filter_cons, hany, ih]
      | some a =>
        have hid : a.id = aid := by
          have hq := List.find?_some h
          simpa using hq
        have hany : all.any (fun x => x.id = aid) = true := by
          rw [List.any_eq_true]
          exact ⟨a, List.mem_reverse.mp (List.mem_of_find?_eq_some h), by simp [hid]⟩
        simp [List.filterMap_cons, h, List.filter_cons, hany, ih, hid]
  · intro aiConfig req o now d f hd hnt hok hne hmc
    have hiso : (some aiConfig : Option AIConfig).isNone = false := rfl
    by_cases hsel : (filterAgentsOrdered req.allAgents d.selected).isEmpty
    · have hsel' : filterAgentsOrdered req.allAgents d.selected = [] :=
        List.isEmpty_iff.mp hsel
      simp [runSmartMeetingModel, hiso, hne, hmc, hd, hsel, hsel', opinionResponses,
        openingResp]
    · rcases hL : runExpertsLoop o (filterAgentsOrdered req.allAgents d.selected) 0
        [openingResp d] [] with ⟨resps, hist, ex⟩
      have hex : ex = .completed := by
        have := runExpertsLoop_all_ok_exit o f hnt hok
          (filterAgentsOrdered req.allAgents d.selected) 0 [openingResp d] []
        rw [hL] at this
        exact this
      subst hex
      have hresp : resps = [openingResp d] ++
          turnResponses o (filterAgentsOrdered req.allAgents d.selected) 0 := by
        have := runExpertsLoop_responses o
          (filterAgentsOrdered req.allAgents d.selected) 0 [openingResp d] []
        rw [hL] at this
        exact this
      have hfin : (runSmartMeetingModel (some aiConfig) req o now).responses =
          (runMeetingSummary o.summary hist resps).1 := by
        simp [runSmartMeetingModel, hiso, hne, hmc, hd, hsel, hL]
      rw [hfin]
      have hturn := turnResponses_shape o (filterAgentsOrdered req.allAgents d.selected) 0
      have hops : ∀ tail, (tail = [] ∨ ∃ s, tail = [summaryResp s]) →
          (opinionResponses (resps ++ tail)).map (fun r => r.agentID) =
            (filterAgentsOrdered req.allAgents d.selected).map (fun a => a.id) := by
        intro tail htail
        rw [hresp]
        have := opinionResponses_meeting d
          (turnResponses o (filterAgentsOrdered req.allAgents d.selected) 0) tail
          (fun e he => (hturn.1 e he).1) htail
        simp only [List.cons_append, List.append_assoc, List.nil_append] at this ⊢
        rw [this]
        rw [turnResponses_all_ok o f hnt hok]
        rw [List.map_map]
        have : ((fun r => r.agentID) ∘ fun (p : Nat × AgentConfig) => okOpinionResp p.2 (f p.1)) =
            (fun (p : Nat × AgentConfig) => p.2.id) := rfl
        rw [this]
        have : (fun (p : Nat × AgentConfig) => p.2.id) = (fun a => a.id) ∘ Prod.snd := rfl
        rw [this, ← List.map_map, List.enumFrom_map_snd]
      rcases runMeetingSummary_responses o.summary hist resps with h | ⟨str, h⟩
      · rw [h]
        have := hops [] (Or.inl rfl)
        simpa using this
      · rw [h]
        exact hops [summaryResp str] (Or.inr ⟨str, rfl⟩)

end JcpModel

namespace JcpModel

/-- C2: when the `MeetingTimeout` deadline elapses mid-meeting in smart mode
(the run returns `ErrMeetingTimeout`), the returned list is exactly the
opening plus the turn responses accumulated before the deadline, no summary
entry is emitted, and the run caches no interrupt state. -/
theorem c2_meeting_timeout (aiConfig : Option AIConfig) (req : ChatRequest)
    (o : SmartOracle) (now : Nat)
    (h : (runSmartMeetingModel aiConfig req o now).error = some .meetingTimeout) :
    ∃ d, o.analyze = AnalyzeResult.ok d ∧
      (runSmartMeetingModel aiConfig req o now).responses =
        openingResp d :: turnResponses o (filterAgentsOrdered req.allAgents d.selected) 0 ∧
      (∀ r ∈ (runSmartMeetingModel aiConfig req o now).responses,
        r.msgType ≠ "summary") ∧
      (runSmartMeetingModel aiConfig req o now).cacheWrite = none := by
  by_cases h1 : aiConfig.isNone
  · simp [runSmartMeetingModel, h1] at h
  by_cases h2 : req.allAgents.isEmpty
  · simp [runSmartMeetingModel, h1, h2] at h
  by_cases h3 : o.modelCreateFail
  · simp [runSmartMeetingModel, h1, h2, h3] at h
  cases ha : o.analyze with
  | timeout => simp [runSmartMeetingModel, h1, h2, h3, ha] at h
  | failed msg => simp [runSmartMeetingModel, h1, h2, h3, ha] at h
  | ok d =>
    by_cases hsel : (filterAgentsOrdered req.allAgents d.selected).isEmpty
    · simp [runSmartMeetingModel, h1, h2, h3, ha, hsel] at h
    · rcases hL : runExpertsLoop o (filterAgentsOrdered req.allAgents d.selected) 0
        [openingResp d] [] with ⟨resps, hist, ex⟩
      cases ex with
      | interrupted i msg =>
        by_cases hsc : req.stockCode = ""
        · simp [runSmartMeetingModel, h1, h2, h3, ha, hsel, hL, hsc,
            runMeetingSummary_error_none] at h
        · simp [runSmartMeetingModel, h1, h2, h3, ha, hsel, hL, hsc] at h
      | completed =>
        simp [runSmartMeetingModel, h1, h2, h3, ha, hsel, hL,
          runMeetingSummary_error_none] at h
      | timedOut =>
        have hres : runSmartMeetingModel aiConfig req o now =
            ⟨resps, some .meetingTimeout, none⟩ := by
          simp [runSmartMeetingModel, h1, h2, h3, ha, hsel, hL]
        have hresp : resps = [openingResp d] ++
            turnResponses o (filterAgentsOrdered req.allAgents d.selected) 0 := by
          have := runExpertsLoop_responses o
            (filterAgentsOrdered req.allAgents d.selected) 0 [openingResp d] []
          rw [hL] at this
          exact this
        refine ⟨d, rfl, ?_, ?_, ?_⟩
        · rw [hres, hresp]
          rfl
        · intro r hr
          rw [hres] at hr
          simp only [] at hr
          rw [hresp] at hr
          rcases List.mem_append.mp hr with hr1 | hr2
          · have : r = openingResp d := by simpa using hr1
            subst this
            simp [openingResp]
          · have := (turnResponses_shape o
              (filterAgentsOrdered req.allAgents d.selected) 0).1 r hr2
            rw [this.1]
            simp
        · rw [hres]

/-- C6: failure (or timeout) of the final summarize call is never fatal —
the summary step itself returns the accumulated responses with a nil error;
an initial smart run whose serial loop completed does the same under a
failing summarizer; and so does a resumed continuation. -/
theorem c6_summary_failure_nonfatal :
    (∀ (e : String) (hist : List DiscussionEntry) (resps : List ChatResponse),
      runMeetingSummary (.error e) hist resps = (resps, none)) ∧
    (∀ (aiConfig : Option AIConfig) (req : ChatRequest) (o : SmartOracle) (now : Nat)
        (e : String) (d : ModeratorDecision) (resps : List ChatResponse)
        (hist : List DiscussionEntry),
      o.summary = .error e → o.analyze = AnalyzeResult.ok d →
      aiConfig.isNone = false → req.allAgents.isEmpty = false →
      o.modelCreateFail = false →
      (filterAgentsOrdered req.allAgents d.selected).isEmpty = false →
      runExpertsLoop o (filterAgentsOrdered req.allAgents d.selected) 0
        [openingResp d] [] = (resps, hist, .completed) →
      runSmartMeetingModel aiConfig req o now = ⟨resps, none, none⟩) ∧
    (∀ (states : List (String × MeetingState)) (now : Nat) (code : String)
        (o : SmartOracle) (st : MeetingState) (e : String)
        (resps : List ChatResponse) (hist : List DiscussionEntry),
      o.summary = .error e →
      stateLookup states code = some st →
      (now - st.createdAt > MeetingStateTTL) = False →
      runExpertsLoop o (st.selectedAgents.drop st.failedIndex) st.failedIndex
        st.responses st.history = (resps, hist, .completed) →
      (continueMeetingModel states now code o).result = .ok (resps, none)) := by
  refine ⟨fun e hist resps => rfl, ?_, ?_⟩
  · intro aiConfig req o now e d resps hist hsum ha h1 h2 h3 hsel hL
    simp [runSmartMeetingModel, h1, h2, h3, ha, hsel, hL, runMeetingSummary, hsum]
  · intro states now code o st e resps hist hsum hlk httl hL
    have httl' : ¬ (now - st.createdAt > MeetingStateTTL) := by
      intro hx
      rw [httl] at hx
      exact hx
    simp [continueMeetingModel, hlk, httl', hL, runMeetingSummary, hsum]

end JcpModel

namespace JcpModel

/-- Concrete fixtures for witnesses and counterexamples. -/
def agentA : AgentConfig := ⟨"a", "Bull", "多头分析师", "", true, ""⟩

/-- A second concrete expert. -/
def agentB : AgentConfig := ⟨"b", "Bear", "空头分析师", "", true, ""⟩

/-- A concrete request over the two experts. -/
def wReq : ChatRequest :=
  ⟨"sh600519", ⟨"sh600519", "贵州茅台"⟩, "今天可以买入吗", [agentA, agentB], none⟩

/-- A concrete planner decision selecting both experts. -/
def wDecision : ModeratorDecision := ⟨"买卖判断", ["a", "b"], "讨论议题", "开场白"⟩

/-- The response-shape property exactly as claimed for smart mode: `R[0]`
is the opening (msgType `opening`, round 0), everything between it and an
optional final summary is an `opinion` with round 1 — failed entries
included — and `R` is a prefix of (opening ⋅ opinions-in-selected-order ⋅
optional summary), with one opinion entry per selected expert. -/
def smartResponsesArePrefix (aiConfig : Option AIConfig) (req : ChatRequest)
    (o : SmartOracle) (now : Nat) : Prop :=
  (runSmartMeetingModel aiConfig req o now).responses = [] ∨
    ∃ (d : ModeratorDecision) (opinions tail : List ChatResponse),
      o.analyze = AnalyzeResult.ok d ∧
      opinions.length = (filterAgentsOrdered req.allAgents d.selected).length ∧
      (∀ p ∈ opinions.zip (filterAgentsOrdered req.allAgents d.selected),
        p.1.agentID = p.2.id ∧ p.1.msgType = "opinion" ∧ p.1.round = 1) ∧
      (tail = [] ∨ ∃ s, tail = [summaryResp s]) ∧
      List.IsPrefix (runSmartMeetingModel aiConfig req o now).responses
        (openingResp d :: opinions ++ tail)

/-- An oracle where the first selected expert's LLM handle cannot be
created (the loop skips it with `continue`) and the second succeeds. -/
def cxOracle : SmartOracle :=
  ⟨false, .ok wDecision,
    fun j => if j = 0 then .createFail else .ok "观点B",
    none, .ok "", ""⟩

/-- C1 counterexample: with the first selected expert skipped by a failed
LLM-handle creation, the returned list is (opening, opinion-of-b), which is
not a prefix of (opening ⋅ opinions-for-[a,b] ⋅ summary?). -/
theorem c1_counterexample :
    ¬ smartResponsesArePrefix (some ⟨"m"⟩) wReq cxOracle 0 := by
  intro hcl
  have hR : (runSmartMeetingModel (some ⟨"m"⟩) wReq cxOracle 0).responses =
      [openingResp wDecision, okOpinionResp agentB "观点B"] := rfl
  rcases hcl with he | ⟨d, opinions, tail, hd, hlen, hzip, _, hpre⟩
  · rw [hR] at he
    cases he
  · have hd2 : AnalyzeResult.ok wDecision = AnalyzeResult.ok d := hd
    have hdd : d = wDecision := by
      cases hd2
      rfl
    subst hdd
    have hsel : filterAgentsOrdered wReq.allAgents wDecision.selected =
        [agentA, agentB] := rfl
    rw [hsel] at hlen hzip
    rcases opinions with _ | ⟨o1, _ | ⟨o2, _ | ⟨o3, rest⟩⟩⟩
    · simp at hlen
    · simp at hlen
    · obtain ⟨t, ht⟩ := hpre
      rw [hR] at ht
      simp only [List.cons_append, List.append_assoc, List.cons.injEq] at ht
      obtain ⟨-, h1, -⟩ := ht
      have ho1 : o1.agentID = agentA.id := (hzip (o1, agentA) (by simp)).1
      rw [← h1] at ho1
      exact absurd ho1 (by decide)
    · simp at hlen

/-- C1 (amended): every returned smart-mode response list is either empty
(an error return) or the opening (msgType `opening`, round 0) followed by
round-1 `opinion` entries — failed-expert entries included — whose agent
ids form an order-preserving subsequence of the planner-selected experts
(an expert whose LLM handle cannot be created is skipped), optionally
ended by one `summary` entry with round 2. -/
theorem c1_smart_response_shape (aiConfig : Option AIConfig) (req : ChatRequest)
    (o : SmartOracle) (now : Nat) :
    (runSmartMeetingModel aiConfig req o now).responses = [] ∨
      ∃ (d : ModeratorDecision) (mid tail : List ChatResponse),
        o.analyze = AnalyzeResult.ok d ∧
        (runSmartMeetingModel aiConfig req o now).responses =
          openingResp d :: mid ++ tail ∧
        (openingResp d).msgType = "opening" ∧ (openingResp d).round = 0 ∧
        (∀ e ∈ mid, e.msgType = "opinion" ∧ e.round = 1) ∧
        List.Sublist (mid.map (fun e => e.agentID))
          ((filterAgentsOrdered req.allAgents d.selected).map (fun a => a.id)) ∧
        (tail = [] ∨ ∃ s, tail = [summaryResp s] ∧
          (summaryResp s).msgType = "summary" ∧ (summaryResp s).round = 2) := by
  by_cases h1 : aiConfig.isNone
  · left; simp [runSmartMeetingModel, h1]
  by_cases h2 : req.allAgents.isEmpty
  · left; simp [runSmartMeetingModel, h1, h2]
  by_cases h3 : o.modelCreateFail
  · left; simp [runSmartMeetingModel, h1, h2, h3]
  cases ha : o.analyze with
  | timeout => left; simp [runSmartMeetingModel, h1, h2, h3, ha]
  | failed msg => left; simp [runSmartMeetingModel, h1, h2, h3, ha]
  | ok d =>
    right
    by_cases hsel : (filterAgentsOrdered req.allAgents d.selected).isEmpty
    · refine ⟨d, [], [], rfl, ?_, rfl, rfl, by simp, by simp, Or.inl rfl⟩
      simp [runSmartMeetingModel, h1, h2, h3, ha, hsel]
    · rcases hL : runExpertsLoop o (filterAgentsOrdered req.allAgents d.selected) 0
        [openingResp d] [] with ⟨resps, hist, ex⟩
      have hresp : resps = [openingResp d] ++
          turnResponses o (filterAgentsOrdered req.allAgents d.selected) 0 := by
        have := runExpertsLoop_responses o
          (filterAgentsOrdered req.allAgents d.selected) 0 [openingResp d] []
        rw [hL] at this
        exact this
      have hshape := turnResponses_shape o
        (filterAgentsOrdered req.allAgents d.selected) 0
      cases ex with
      | timedOut =>
        refine ⟨d, turnResponses o (filterAgentsOrdered req.allAgents d.selected) 0,
          [], rfl, ?_, rfl, rfl, fun e he => ⟨(hshape.1 e he).1, (hshape.1 e he).2.1⟩,
          hshape.2, Or.inl rfl⟩
        have : (runSmartMeetingModel aiConfig req o now).responses = resps := by
          simp [runSmartMeetingModel, h1, h2, h3, ha, hsel, hL]
        rw [this, hresp]
        simp
      | interrupted i msg =>
        by_cases hsc : req.stockCode = ""
        · rcases runMeetingSummary_responses o.summary hist resps with hs | ⟨str, hs⟩
          · refine ⟨d, turnResponses o (filterAgentsOrdered req.allAgents d.selected) 0,
              [], rfl, ?_, rfl, rfl,
              fun e he => ⟨(hshape.1 e he).1, (hshape.1 e he).2.1⟩, hshape.2, Or.inl rfl⟩
            have : (runSmartMeetingModel aiConfig req o now).responses =
                (runMeetingSummary o.summary hist resps).1 := by
              simp [runSmartMeetingModel, h1, h2, h3, ha, hsel, hL, hsc]
            rw [this, hs, hresp]
            simp
          · refine ⟨d, turnResponses o (filterAgentsOrdered req.allAgents d.selected) 0,
              [summaryResp str], rfl, ?_, rfl, rfl,
              fun e he => ⟨(hshape.1 e he).1, (hshape.1 e he).2.1⟩, hshape.2,
              Or.inr ⟨str, rfl, rfl, rfl⟩⟩
            have : (runSmartMeetingModel aiConfig req o now).responses =
                (runMeetingSummary o.summary hist resps).1 := by
              simp [runSmartMeetingModel, h1, h2, h3, ha, hsel, hL, hsc]
            rw [this, hs, hresp]
            simp
        · refine ⟨d, turnResponses o (filterAgentsOrdered req.allAgents d.selected) 0,
            [], rfl, ?_, rfl, rfl,
            fun e he => ⟨(hshape.1 e he).1, (hshape.1 e he).2.1⟩, hshape.2, Or.inl rfl⟩
          have : (runSmartMeetingModel aiConfig req o now).responses = resps := by
            simp [runSmartMeetingModel, h1, h2, h3, ha, hsel, hL, hsc]
          rw [this, hresp]
          simp
      | completed =>
        rcases runMeetingSummary_responses o.summary hist resps with hs | ⟨str, hs⟩
        · refine ⟨d, turnResponses o (filterAgentsOrdered req.allAgents d.selected) 0,
            [], rfl, ?_, rfl, rfl,
            fun e he => ⟨(hshape.1 e he).1, (hshape.1 e he).2.1⟩, hshape.2, Or.inl rfl⟩
          have : (runSmartMeetingModel aiConfig req o now).responses =
              (runMeetingSummary o.summary hist resps).1 := by
            simp [runSmartMeetingModel, h1, h2, h3, ha, hsel, hL]
          rw [this, hs, hresp]
          simp
        · refine ⟨d, turnResponses o (filterAgentsOrdered req.allAgents d.selected) 0,
            [summaryResp str], rfl, ?_, rfl, rfl,
            fun e he => ⟨(hshape.1 e he).1, (hshape.1 e he).2.1⟩, hshape.2,
            Or.inr ⟨str, rfl, rfl, rfl⟩⟩
          have : (runSmartMeetingModel aiConfig req o now).responses =
              (runMeetingSummary o.summary hist resps).1 := by
            simp [runSmartMeetingModel, h1, h2, h3, ha, hsel, hL]
          rw [this, hs, hresp]
          simp

end JcpModel

namespace JcpModel

/-- C5: an interrupt state whose `createdAt` lies more than the TTL in the
past is invisible — `HasInterruptedMeeting` answers false and
`ContinueMeeting` fails with the descriptive error instead of resuming —
and a state is treated as valid exactly while `now - createdAt ≤ TTL`. -/
theorem c5_ttl_expiry :
    (∀ (states : List (String × MeetingState)) (now : Nat) (code : String)
        (st : MeetingState) (o : SmartOracle),
      stateLookup states code = some st →
      now - st.createdAt > MeetingStateTTL →
      hasInterruptedMeeting states now code = false ∧
      (continueMeetingModel states now code o).result =
        .error "没有可恢复的会议状态") ∧
    (∀ (states : List (String × MeetingState)) (now : Nat) (code : String),
      hasInterruptedMeeting states now code = true ↔
        ∃ st, stateLookup states code = some st ∧
          now - st.createdAt ≤ MeetingStateTTL) := by
  constructor
  · intro states now code st o hlk httl
    constructor
    · simp [hasInterruptedMeeting, hlk, httl]
    · simp [continueMeetingModel, hlk, httl]
  · intro states now code
    cases hlk : stateLookup states code with
    | none => simp [hasInterruptedMeeting, hlk]
    | some st =>
      simp only [hasInterruptedMeeting, hlk]
      by_cases h : now - st.createdAt > MeetingStateTTL
      · simp only [if_pos h]
        constructor
        · intro hv
          cases hv
        · rintro ⟨st2, hst2, hle⟩
          injection hst2 with hst2
          subst hst2
          exact absurd h (Nat.not_lt.mpr hle)
      · simp only [if_neg h]
        constructor
        · intro _
          exact ⟨st, rfl, Nat.le_of_not_lt h⟩
        · intro _
          trivial

/-- A cached interrupt state used by the witnesses. -/
def wState : MeetingState :=
  ⟨some ⟨"m"⟩, ⟨"sh600519", "贵州茅台"⟩, "今天可以买入吗", none, [agentA, agentB],
    [], [openingResp wDecision, failedOpinionResp agentA "网络错误"], 0, "", 0⟩

/-- An oracle whose summarize call fails and whose turns all succeed. -/
def wOracleSumFail : SmartOracle :=
  ⟨false, .ok wDecision,
    fun j => .ok (if j = 0 then "观点A" else "观点B"),
    none, .error "响应超时", ""⟩

/-- C5 witness: a state created at time 0 checked just past the TTL. -/
theorem c5_ttl_expiry_witness :
    hasInterruptedMeeting [("sh600519", wState)] (MeetingStateTTL + 1) "sh600519" = false ∧
    (continueMeetingModel [("sh600519", wState)] (MeetingStateTTL + 1) "sh600519"
        wOracleSumFail).result = .error "没有可恢复的会议状态" :=
  c5_ttl_expiry.1 [("sh600519", wState)] (MeetingStateTTL + 1) "sh600519" wState
    wOracleSumFail rfl (by simp [wState, MeetingStateTTL])

/-- An oracle whose meeting deadline elapses before the second expert. -/
def wOracleTimeout : SmartOracle :=
  ⟨false, .ok wDecision, fun _ => .ok "观点A", some 1, .ok "总结", ""⟩

/-- C2 witness: the deadline elapses after the first of two experts. -/
theorem c2_meeting_timeout_witness :
    ∃ d, wOracleTimeout.analyze = AnalyzeResult.ok d ∧
      (runSmartMeetingModel (some ⟨"m"⟩) wReq wOracleTimeout 7).responses =
        openingResp d :: turnResponses wOracleTimeout
          (filterAgentsOrdered wReq.allAgents d.selected) 0 ∧
      (∀ r ∈ (runSmartMeetingModel (some ⟨"m"⟩) wReq wOracleTimeout 7).responses,
        r.msgType ≠ "summary") ∧
      (runSmartMeetingModel (some ⟨"m"⟩) wReq wOracleTimeout 7).cacheWrite = none :=
  c2_meeting_timeout (some ⟨"m"⟩) wReq wOracleTimeout 7 rfl

/-- The responses accumulated by `wOracleSumFail`'s completed loop. -/
def wSumResps : List ChatResponse :=
  [openingResp wDecision, okOpinionResp agentA "观点A", okOpinionResp agentB "观点B"]

/-- The transcript accumulated by `wOracleSumFail`'s completed loop. -/
def wSumHist : List DiscussionEntry :=
  [mkEntry agentA "观点A", mkEntry agentB "观点B"]

/-- C6 witness: a failing summarizer leaves the accumulated responses and a
nil error, both on the initial run and on a continuation. -/
theorem c6_summary_failure_nonfatal_witness :
    runSmartMeetingModel (some ⟨"m"⟩) wReq wOracleSumFail 0 = ⟨wSumResps, none, none⟩ ∧
    (continueMeetingModel [("sh600519", wState)] 5 "sh600519" wOracleSumFail).result =
      .ok (wState.responses ++ [okOpinionResp agentA "观点A", okOpinionResp agentB "观点B"],
        none) :=
  ⟨c6_summary_failure_nonfatal.2.1 (some ⟨"m"⟩) wReq wOracleSumFail 0 "响应超时"
      wDecision wSumResps wSumHist rfl rfl rfl rfl rfl rfl rfl,
    c6_summary_failure_nonfatal.2.2 [("sh600519", wState)] 5 "sh600519" wOracleSumFail
      wState "响应超时"
      (wState.responses ++ [okOpinionResp agentA "观点A", okOpinionResp agentB "观点B"])
      (wState.history ++ [mkEntry agentA "观点A", mkEntry agentB "观点B"])
      rfl rfl (eq_false (by decide)) rfl⟩

/-- C9 witness: with every turn succeeding, the recorded opinion ids equal
the selected-and-found ids, one per occurrence. -/
theorem c9_filterAgentsOrdered_no_dedup_witness :
    (opinionResponses (runSmartMeetingModel (some ⟨"m"⟩) wReq wOracleSumFail 3).responses).map
        (fun r => r.agentID) =
      (filterAgentsOrdered wReq.allAgents wDecision.selected).map (fun a => a.id) :=
  c9_filterAgentsOrdered_no_dedup.2 ⟨"m"⟩ wReq wOracleSumFail 3 wDecision
    (fun j => if j = 0 then "观点A" else "观点B") rfl rfl (fun _ => rfl) rfl rfl

end JcpModel

namespace JcpModel

/-- Rewriting leaves no system role behind. -/
theorem rewriteSystemMsg_role (m : ChatMessage) : (rewriteSystemMsg m).role ≠ "system" := by
  unfold rewriteSystemMsg
  by_cases h : m.role = "system" <;> simp [h]

/-- C8: with `noSystemRole = true`, the built chat-completion request
contains no message with the system role, and a present system instruction
is sent as the first user-role message. -/
theorem c8_no_system_role (req : LLMRequest) (modelName : String)
    (out : OpenAIRequest)
    (h : toOpenAIChatCompletionRequest req modelName true = .ok out) :
    (∀ m ∈ out.messages, m.role ≠ "system") ∧
    (∀ cfg si, req.config = some cfg → cfg.systemInstruction = some si →
      out.messages.head? =
        some (mkRoleMsg "user" (extractTextFromContent (some si)))) := by
  have key : ∃ pre, out.messages = pre.map rewriteSystemMsg ∧
      (∀ cfg si, req.config = some cfg → cfg.systemInstruction = some si →
        ∃ rest, pre = mkRoleMsg "user" (extractTextFromContent (some si)) :: rest) := by
    cases hcfg : req.config with
    | none =>
      simp only [toOpenAIChatCompletionRequest, hcfg] at h
      refine ⟨req.contents.flatMap toOpenAIChatCompletionMessage, ?_, ?_⟩
      · cases h
        rfl
      · intro cfg si hc
        cases hc
    | some cfg =>
      simp only [toOpenAIChatCompletionRequest, hcfg] at h
      by_cases htools : cfg.tools.isEmpty
      · simp only [htools, if_true] at h
        cases hsi : cfg.systemInstruction with
        | none =>
          simp only [hsi] at h
          refine ⟨req.contents.flatMap toOpenAIChatCompletionMessage, ?_, ?_⟩
          · cases h
            rfl
          · intro cfg2 si hc hsi2
            injection hc with hc
            subst hc
            rw [hsi] at hsi2
            cases hsi2
        | some si =>
          simp only [hsi] at h
          refine ⟨mkRoleMsg "user" (extractTextFromContent (some si)) ::
            req.contents.flatMap toOpenAIChatCompletionMessage, ?_, ?_⟩
          · cases h
            rfl
          · intro cfg2 si2 hc hsi2
            injection hc with hc
            subst hc
            rw [hsi] at hsi2
            injection hsi2 with hsi2
            subst hsi2
            exact ⟨_, rfl⟩
      · simp only [htools, if_false] at h
        cases hct : convertTools cfg.tools with
        | error e =>
          rw [hct] at h
          cases h
        | ok tl =>
          rw [hct] at h
          cases hsi : cfg.systemInstruction with
          | none =>
            simp only [hsi] at h
            refine ⟨req.contents.flatMap toOpenAIChatCompletionMessage, ?_, ?_⟩
            · cases h
              rfl
            · intro cfg2 si hc hsi2
              injection hc with hc
              subst hc
              rw [hsi] at hsi2
              cases hsi2
          | some si =>
            simp only [hsi] at h
            refine ⟨mkRoleMsg "user" (extractTextFromContent (some si)) ::
              req.contents.flatMap toOpenAIChatCompletionMessage, ?_, ?_⟩
            · cases h
              rfl
            · intro cfg2 si2 hc hsi2
              injection hc with hc
              subst hc
              rw [hsi] at hsi2
              injection hsi2 with hsi2
              subst hsi2
              exact ⟨_, rfl⟩
  obtain ⟨pre, hmsg, hhead⟩ := key
  constructor
  · intro m hm
    rw [hmsg] at hm
    obtain ⟨m0, -, hm0⟩ := List.mem_map.mp hm
    rw [← hm0]
    exact rewriteSystemMsg_role m0
  · intro cfg si hc hsi
    obtain ⟨rest, hrest⟩ := hhead cfg si hc hsi
    rw [hmsg, hrest]
    simp only [List.map_cons, List.head?_cons]
    have : rewriteSystemMsg (mkRoleMsg "user" (extractTextFromContent (some si))) =
        mkRoleMsg "user" (extractTextFromContent (some si)) := by
      simp [rewriteSystemMsg, mkRoleMsg]
    rw [this]

end JcpModel

namespace JcpModel

/-- A request carrying both a system-role content and a system instruction. -/
def wC8Req : LLMRequest :=
  ⟨[⟨"system", [textPart "早期系统提示"]⟩, ⟨"user", [textPart "你好"]⟩],
    some ⟨some "low", [], 256, [], some ⟨"system", [textPart "系统提示"]⟩, ""⟩⟩

/-- The request actually built from `wC8Req` under `noSystemRole = true`. -/
def wC8Out : OpenAIRequest :=
  { model := "gpt-test"
    messages := [mkRoleMsg "user" "系统提示", mkRoleMsg "user" "早期系统提示",
      mkRoleMsg "user" "你好"]
    reasoningEffort := "low"
    maxTokens := 256
    stop := []
    jsonResponseFormat := false
    tools := [] }

/-- C8 witness: the concrete built request has no system-role message and
starts with the instruction as a user message. -/
theorem c8_no_system_role_witness :
    (∀ m ∈ wC8Out.messages, m.role ≠ "system") ∧
    (∀ cfg si, wC8Req.config = some cfg → cfg.systemInstruction = some si →
      wC8Out.messages.head? =
        some (mkRoleMsg "user" (extractTextFromContent (some si)))) :=
  c8_no_system_role wC8Req "gpt-test" wC8Out rfl

end JcpModel

namespace JcpModel

/-- `String.join` distributes over append. -/
theorem strJoin_append (l1 l2 : List String) :
    String.join (l1 ++ l2) = String.join l1 ++ String.join l2 := by
  simp only [String.join_eq]
  refine congrArg String.mk ?_
  simp [List.map_append, List.flatten_append]

/-- `String.join` of nil. -/
theorem strJoin_nil : String.join [] = "" := rfl

/-- `String.join` of a cons. -/
theorem strJoin_cons (s : String) (l : List String) :
    String.join (s :: l) = s ++ String.join l := by
  have := strJoin_append [s] l
  simpa [String.join] using this

/-- `streamingContents` distributes over append. -/
theorem streamingContents_append (l1 l2 : List ProgressEvent) :
    streamingContents (l1 ++ l2) = streamingContents l1 ++ streamingContents l2 := by
  simp [streamingContents]

/-- The streaming deltas one drained part contributes. -/
def partStreamTexts (isPart : Bool) (p : GPart) : List String :=
  if p.thought then []
  else if p.text ≠ "" ∧ isPart then [p.text] else []

/-- The streaming deltas one drained event contributes. -/
def evStreamTexts (ev : LLMResponse) : List String :=
  match ev.content with
  | none => []
  | some c => c.parts.flatMap (partStreamTexts ev.isPartial)

/-- Draining one part appends exactly its streaming deltas. -/
theorem drainPart_streaming (cfg : AgentConfig) (isPart : Bool)
    (st : String × List ProgressEvent) (p : GPart) :
    streamingContents (drainPart cfg isPart st p).2 =
      streamingContents st.2 ++ partStreamTexts isPart p ∧
    (drainPart cfg isPart st p).1 = st.1 ++ String.join (partStreamTexts isPart p) := by
  unfold drainPart partStreamTexts
  by_cases ht : p.thought
  · simp [ht, String.join]
  · simp only [ht, if_false]
    cases hfc : p.functionCall with
    | none =>
      cases hfr : p.functionResponse with
      | none =>
        by_cases htxt : p.text ≠ ""
        · by_cases hp : isPart = true
          · subst hp
            simp [htxt, streamingContents_append, streamingContents, String.join]
          · have hp' : isPart = false := by
              cases isPart
              · rfl
              · exact absurd rfl hp
            subst hp'
            simp [htxt, String.join]
        · simp [htxt, String.join]
      | some fr =>
        by_cases htxt : p.text ≠ ""
        · by_cases hp : isPart = true
          · subst hp
            simp [htxt, streamingContents_append, streamingContents, String.join]
          · have hp' : isPart = false := by
              cases isPart
              · rfl
              · exact absurd rfl hp
            subst hp'
            simp [htxt, streamingContents_append, streamingContents, String.join]
        · simp [htxt, streamingContents_append, streamingContents, String.join]
    | some fc =>
      cases hfr : p.functionResponse with
      | none =>
        by_cases htxt : p.text ≠ ""
        · by_cases hp : isPart = true
          · subst hp
            simp [htxt, streamingContents_append, streamingContents, String.join]
          · have hp' : isPart = false := by
              cases isPart
              · rfl
              · exact absurd rfl hp
            subst hp'
            simp [htxt, streamingContents_append, streamingContents, String.join]
        · simp [htxt, streamingContents_append, streamingContents, String.join]
      | some fr =>
        by_cases htxt : p.text ≠ ""
        · by_cases hp : isPart = true
          · subst hp
            simp [htxt, streamingContents_append, streamingContents, String.join]
          · have hp' : isPart = false := by
              cases isPart
              · rfl
              · exact absurd rfl hp
            subst hp'
            simp [htxt, streamingContents_append, streamingContents, String.join]
        · simp [htxt, streamingContents_append, streamingContents, String.join]

/-- Draining a part list appends exactly its streaming deltas. -/
theorem drainParts_streaming (cfg : AgentConfig) (isPart : Bool) :
    ∀ (parts : List GPart) (st : String × List ProgressEvent),
      streamingContents ((parts.foldl (drainPart cfg isPart) st).2) =
        streamingContents st.2 ++ parts.flatMap (partStreamTexts isPart) ∧
      (parts.foldl (drainPart cfg isPart) st).1 =
        st.1 ++ String.join (parts.flatMap (partStreamTexts isPart)) := by
  intro parts
  induction parts with
  | nil => intro st; simp [String.join]
  | cons p rest ih =>
    intro st
    simp only [List.foldl_cons, List.flatMap_cons]
    obtain ⟨ih1, ih2⟩ := ih (drainPart cfg isPart st p)
    obtain ⟨h1, h2⟩ := drainPart_streaming cfg isPart st p
    refine ⟨?_, ?_⟩
    · rw [ih1, h1, List.append_assoc]
    · rw [ih2, h2, strJoin_append, String.append_assoc]

/-- Draining an event list appends exactly its streaming deltas, and the
accumulated content is their concatenation. -/
theorem drainEvents_streaming (cfg : AgentConfig) :
    ∀ (evs : List LLMResponse) (st : String × List ProgressEvent),
      streamingContents ((evs.foldl (drainEvent cfg) st).2) =
        streamingContents st.2 ++ evs.flatMap evStreamTexts ∧
      (evs.foldl (drainEvent cfg) st).1 =
        st.1 ++ String.join (evs.flatMap evStreamTexts) := by
  intro evs
  induction evs with
  | nil => intro st; simp [String.join]
  | cons ev rest ih =>
    intro st
    simp only [List.foldl_cons, List.flatMap_cons]
    have hev : streamingContents ((drainEvent cfg st ev).2) =
        streamingContents st.2 ++ evStreamTexts ev ∧
        (drainEvent cfg st ev).1 = st.1 ++ String.join (evStreamTexts ev) := by
      unfold drainEvent evStreamTexts
      cases hc : ev.content with
      | none => simp [String.join]
      | some c => exact drainParts_streaming cfg ev.isPartial c.parts st
    obtain ⟨ih1, ih2⟩ := ih (drainEvent cfg st ev)
    refine ⟨?_, ?_⟩
    · rw [ih1, hev.1, List.append_assoc]
    · rw [ih2, hev.2, strJoin_append, String.append_assoc]

end JcpModel

namespace JcpModel

/-- The content deltas of a received stream, one entry per non-empty delta. -/
def chunkDeltas (chunks : List StreamChunk) : List String :=
  chunks.flatMap fun c => match c.choices with
    | [] => []
    | ch :: _ => if ch.deltaContent = "" then [] else [ch.deltaContent]

/-- A non-partial response contributes no streaming deltas. -/
theorem partStreamTexts_false (p : GPart) : partStreamTexts false p = [] := by
  unfold partStreamTexts
  by_cases ht : p.thought <;> simp [ht]

/-- A join of empty strings is empty. -/
theorem strJoin_all_empty : ∀ (l : List String), (∀ s ∈ l, s = "") → String.join l = "" := by
  intro l
  induction l with
  | nil => intro _; rfl
  | cons s rest ih =>
    intro h
    rw [strJoin_cons, h s (by simp), ih (fun x hx => h x (by simp [hx]))]
    rfl

/-- One processed chunk yields exactly its content delta as streaming text,
and appends it to the aggregated text. -/
theorem processChunk_texts (st : StreamState) (c : StreamChunk) :
    (processChunk st c).2.flatMap evStreamTexts =
      (match c.choices with
        | [] => []
        | ch :: _ => if ch.deltaContent = "" then [] else [ch.deltaContent]) ∧
    (processChunk st c).1.textContent =
      st.textContent ++ String.join (match c.choices with
        | [] => []
        | ch :: _ => if ch.deltaContent = "" then [] else [ch.deltaContent]) := by
  unfold processChunk
  cases hch : c.choices with
  | nil => simp [String.join]
  | cons choice restc =>
    by_cases hr : choice.deltaReasoning = ""
    · by_cases hc : choice.deltaContent = ""
      · cases hu : c.usage <;>
          simp [hr, hc, hu, evStreamTexts, partialResp, String.join] <;>
          by_cases hf : choice.finishReason = "" <;> simp [hf]
      · cases hu : c.usage <;>
          simp [hr, hc, hu, evStreamTexts, partialResp, thoughtPart, textPart,
            partStreamTexts, strJoin_cons, String.join] <;>
          by_cases hf : choice.finishReason = "" <;> simp [hf]
    · by_cases hc : choice.deltaContent = ""
      · cases hu : c.usage <;>
          simp [hr, hc, hu, evStreamTexts, partialResp, thoughtPart, partStreamTexts,
            String.join] <;>
          by_cases hf : choice.finishReason = "" <;> simp [hf]
      · cases hu : c.usage <;>
          simp [hr, hc, hu, evStreamTexts, partialResp, thoughtPart, textPart,
            partStreamTexts, strJoin_cons, String.join] <;>
          by_cases hf : choice.finishReason = "" <;> simp [hf]

/-- The loop over all chunks yields exactly the content deltas and
aggregates exactly their concatenation. -/
theorem processChunksLoop_texts :
    ∀ (chunks : List StreamChunk) (st : StreamState),
      (processChunksLoop st chunks).2.flatMap evStreamTexts = chunkDeltas chunks ∧
      (processChunksLoop st chunks).1.textContent =
        st.textContent ++ String.join (chunkDeltas chunks) := by
  intro chunks
  induction chunks with
  | nil => intro st; simp [processChunksLoop, chunkDeltas, String.join]
  | cons c rest ih =>
    intro st
    simp only [processChunksLoop, chunkDeltas, List.flatMap_cons]
    obtain ⟨h1, h2⟩ := processChunk_texts st c
    obtain ⟨ih1, ih2⟩ := ih (processChunk st c).1
    constructor
    · rw [List.flatMap_append, ih1, h1]
      rfl
    · rw [ih2, h2, strJoin_append, String.append_assoc]
      rfl

/-- The final aggregated response contributes no streaming deltas. -/
theorem finalResponse_no_stream (st : StreamState) :
    evStreamTexts (finalResponse st) = [] := by
  unfold evStreamTexts finalResponse
  simp only []
  have : ∀ (l : List GPart), l.flatMap (partStreamTexts false) = [] := by
    intro l
    induction l with
    | nil => rfl
    | cons p r ih => simp [partStreamTexts_false, ih]
  exact this _

end JcpModel

namespace JcpModel

/-- The visible (non-thought) text of one response. -/
def visibleText (ev : LLMResponse) : String :=
  match ev.content with
  | none => ""
  | some c => String.join ((c.parts.filter (fun p => ¬ p.thought)).map (fun p => p.text))

/-- Parts with empty text contribute nothing visible. -/
theorem callParts_empty (l : List GPart)
    (h : ∀ p ∈ l, p.thought = false ∧ p.text = "") :
    String.join ((l.filter (fun p => ! p.thought)).map (fun p => p.text)) = "" := by
  apply strJoin_all_empty
  intro s hs
  obtain ⟨p, hp1, hp2⟩ := List.mem_map.mp hs
  rw [← hp2]
  exact (h p (List.mem_of_mem_filter hp1)).2

/-- The final aggregated response's visible text is the vendor-filtered
aggregated delta text. -/
theorem visibleText_finalResponse (st : StreamState) :
    visibleText (finalResponse st) = FilterVendorToolCallMarkers st.textContent := by
  have appEmpty : ∀ s : String, s ++ "" = s := by
    intro s
    exact congrArg String.mk (List.append_nil _)
  have hvendor : ∀ (vc : List VendorCall),
      String.join ((((vc.enum.map fun p =>
        callPart ⟨"vendor_call_" ++ toString p.1, p.2.name, some []⟩)).filter
          (fun p => ! p.thought)).map (fun p => p.text)) = "" := by
    intro vc
    apply callParts_empty
    intro p hp
    obtain ⟨q, -, hq⟩ := List.mem_map.mp hp
    rw [← hq]
    exact ⟨rfl, rfl⟩
  have htcj : String.join (((((sortedKeys st.toolCallsMap).filterMap fun i =>
      (tcGet st.toolCallsMap i).map fun b =>
        callPart ⟨b.id, b.name, parseJSONArgs b.args⟩)).filter
        (fun p => ! p.thought)).map (fun p => p.text)) = "" := by
    apply callParts_empty
    intro p hp
    obtain ⟨i, -, hq⟩ := List.mem_filterMap.mp hp
    obtain ⟨b, -, hb⟩ := Option.map_eq_some'.mp hq
    rw [← hb]
    exact ⟨rfl, rfl⟩
  unfold visibleText finalResponse
  simp only [List.filter_append, List.map_append, strJoin_append, htcj, appEmpty]
  by_cases htc : st.textContent = ""
  · by_cases hrc : st.reasoningContent = "" <;>
      · simp [htc, hrc, htcj, thoughtPart, strJoin_nil, appEmpty]
        try rfl
  · by_cases hcln : (parseVendorToolCallsL st.textContent.data).2 = []
    · by_cases hrc : st.reasoningContent = "" <;>
        · simp [htc, hrc, hcln, htcj, hvendor, thoughtPart, appEmpty, strJoin_nil]
          simp [FilterVendorToolCallMarkers, hcln]
    · by_cases hrc : st.reasoningContent = "" <;>
        · simp [htc, hrc, hcln, htcj, hvendor, thoughtPart, textPart, appEmpty,
            strJoin_cons]
          simp [FilterVendorToolCallMarkers]

end JcpModel

namespace JcpModel

/-- C4: for an expert turn drained from a cleanly finished stream, (i)
vendor-filtering the concatenation of all `streaming` event contents yields
exactly the turn's final visible text (what `runSingleAgentWithHistory`
returns as the `ChatResponse` content), (ii) the `streaming` events carry
exactly the stream's non-empty content deltas, one event per delta, and
(iii) the final aggregated response's visible text equals the
vendor-filtered concatenation of its delta stream. -/
theorem c4_streaming_roundtrip (cfg : AgentConfig) (chunks : List StreamChunk) :
    FilterVendorToolCallMarkers
        (String.join (streamingContents (runSingleAgentTurn cfg (processStream chunks)).2)) =
      (runSingleAgentTurn cfg (processStream chunks)).1 ∧
    streamingContents (runSingleAgentTurn cfg (processStream chunks)).2 =
      chunkDeltas chunks ∧
    visibleText (finalResponse (processChunksLoop initStreamState chunks).1) =
      FilterVendorToolCallMarkers (String.join (chunkDeltas chunks)) := by
  obtain ⟨hs, hc⟩ := drainEvents_streaming cfg (processStream chunks) ("", [])
  have hres2 : (runSingleAgentTurn cfg (processStream chunks)).2 =
      (drainEvents cfg (processStream chunks)).2 := rfl
  have hres1 : (runSingleAgentTurn cfg (processStream chunks)).1 =
      FilterVendorToolCallMarkers (drainEvents cfg (processStream chunks)).1 := rfl
  have hflat : (processStream chunks).flatMap evStreamTexts = chunkDeltas chunks := by
    show ((processChunksLoop initStreamState chunks).2 ++
        [finalResponse (processChunksLoop initStreamState chunks).1]).flatMap
          evStreamTexts = chunkDeltas chunks
    rw [List.flatMap_append, (processChunksLoop_texts chunks initStreamState).1]
    simp [finalResponse_no_stream]
  have hsc : streamingContents (drainEvents cfg (processStream chunks)).2 =
      chunkDeltas chunks := by
    unfold drainEvents
    rw [hs, hflat]
    rfl
  have hcon : (drainEvents cfg (processStream chunks)).1 =
      String.join (chunkDeltas chunks) := by
    unfold drainEvents
    rw [hc, hflat]
    rfl
  refine ⟨?_, ?_, ?_⟩
  · rw [hres1, hres2, hsc, hcon]
  · rw [hres2, hsc]
  · rw [visibleText_finalResponse, (processChunksLoop_texts chunks initStreamState).2]
    rfl

end JcpModel

namespace JcpModel

/-- C10 counterexample: the claim says `parseJSONArgs` returns a non-nil map
for every input, but `json.Unmarshal` decodes the text `null` into the nil
map without error, which `parseJSONArgs` returns as-is. -/
theorem c10_counterexample : ¬ (∀ s : String, parseJSONArgs s ≠ none) :=
  fun h => h "null" rfl

/-- C10 (amended): `parseJSONArgs` is total and never reports an error; the
empty string, any string that fails to decode as JSON, and any non-object
non-null JSON value yield the empty non-nil map; the only inputs producing
the nil map are those decoding to JSON `null` — and the nil map also holds
no entries, so malformed streamed tool-call argument payloads never fail
the turn. -/
theorem c10_parseJSONArgs_total :
    parseJSONArgs "" = some [] ∧
    (∀ s : String, jsonDecodeTop s = none → s ≠ "" → parseJSONArgs s = some []) ∧
    (∀ s : String, parseJSONArgs s = none ↔
      (jsonDecodeTop s = some .null ∧ s ≠ "")) ∧
    (∀ (s : String) (v : Json), jsonDecodeTop s = some v → s ≠ "" →
      (∀ members, v ≠ .obj members) → v ≠ .null → parseJSONArgs s = some []) := by
  refine ⟨rfl, ?_, ?_, ?_⟩
  · intro s hdec hne
    simp [parseJSONArgs, hne, hdec]
  · intro s
    constructor
    · intro h
      by_cases hne : s = ""
      · rw [hne] at h
        cases h
      · refine ⟨?_, hne⟩
        simp only [parseJSONArgs, hne, if_false] at h
        cases hdec : jsonDecodeTop s with
        | none => rw [hdec] at h; cases h
        | some v =>
          rw [hdec] at h
          cases v with
          | null => rfl
          | bool b => cases h
          | num raw => cases h
          | str s2 => cases h
          | arr l => cases h
          | obj m => cases h
    · rintro ⟨hdec, hne⟩
      simp [parseJSONArgs, hne, hdec]
  · intro s v hdec hne hobj hnull
    cases v with
    | null => exact absurd rfl hnull
    | obj m => exact absurd rfl (hobj m)
    | bool b => simp [parseJSONArgs, hne, hdec]
    | num raw => simp [parseJSONArgs, hne, hdec]
    | str s2 => simp [parseJSONArgs, hne, hdec]
    | arr l => simp [parseJSONArgs, hne, hdec]

/-- C10 witness: concrete malformed and non-object payloads. -/
theorem c10_parseJSONArgs_total_witness :
    parseJSONArgs "not json" = some [] ∧ parseJSONArgs "[1,2]" = some [] ∧
    (parseJSONArgs "null" = none ↔
      (jsonDecodeTop "null" = some .null ∧ "null" ≠ "")) :=
  ⟨c10_parseJSONArgs_total.2.1 "not json" rfl (by decide),
    c10_parseJSONArgs_total.2.2.2 "[1,2]" (.arr [.num "1", .num "2"]) rfl (by decide)
      (fun members h => Json.noConfusion h) (fun h => Json.noConfusion h),
    c10_parseJSONArgs_total.2.2.1 "null"⟩

end JcpModel

namespace JcpModel

/-- A list with a non-whitespace head is untouched by `skipWs`. -/
theorem skipWs_not_ws (c : Char) (cs : List Char) (h : isWsChar c = false) :
    skipWs (c :: cs) = c :: cs := by
  simp [skipWs, h]

/-- A closing quote ends the string body. -/
theorem parseJStringAux_quote (acc rest : List Char) :
    parseJStringAux acc ('"' :: rest) = some (⟨acc.reverse⟩, rest) := by
  rw [parseJStringAux.eq_def]
  simp

/-- An escaped quote. -/
theorem parseJStringAux_escQuote (acc rest : List Char) :
    parseJStringAux acc ('\\' :: '"' :: rest) = parseJStringAux ('"' :: acc) rest := by
  rw [parseJStringAux.eq_def]
  simp

/-- An escaped backslash. -/
theorem parseJStringAux_escBackslash (acc rest : List Char) :
    parseJStringAux acc ('\\' :: '\\' :: rest) = parseJStringAux ('\\' :: acc) rest := by
  rw [parseJStringAux.eq_def]
  simp

/-- An escaped newline. -/
theorem parseJStringAux_escN (acc rest : List Char) :
    parseJStringAux acc ('\\' :: 'n' :: rest) = parseJStringAux ('\n' :: acc) rest := by
  rw [parseJStringAux.eq_def]
  simp

/-- An escaped carriage return. -/
theorem parseJStringAux_escR (acc rest : List Char) :
    parseJStringAux acc ('\\' :: 'r' :: rest) = parseJStringAux ('\r' :: acc) rest := by
  rw [parseJStringAux.eq_def]
  simp

/-- An escaped tab. -/
theorem parseJStringAux_escT (acc rest : List Char) :
    parseJStringAux acc ('\\' :: 't' :: rest) = parseJStringAux ('\t' :: acc) rest := by
  rw [parseJStringAux.eq_def]
  simp

/-- Any other character is taken raw. -/
theorem parseJStringAux_raw (acc rest : List Char) (c : Char)
    (h1 : ¬ c = '"') (h2 : ¬ c = '\\') :
    parseJStringAux acc (c :: rest) = parseJStringAux (c :: acc) rest := by
  rw [parseJStringAux.eq_def]
  simp [h1, h2]

/-- Reading back an escaped character list. -/
theorem parseJStringAux_escList (cs : List Char) :
    ∀ (acc rest : List Char),
      parseJStringAux acc (escList cs ++ '"' :: rest) =
        some (⟨acc.reverse ++ cs⟩, rest) := by
  induction cs with
  | nil =>
    intro acc rest
    simp only [escList, List.nil_append]
    rw [parseJStringAux_quote]
    simp
  | cons c cs ih =>
    intro acc rest
    simp only [escList, List.append_assoc]
    by_cases h1 : c = '"'
    · subst h1
      rw [show escChar '"' = ['\\', '"'] from rfl]
      simp only [List.cons_append, List.nil_append]
      rw [parseJStringAux_escQuote, ih]
      simp
    · by_cases h2 : c = '\\'
      · subst h2
        rw [show escChar '\\' = ['\\', '\\'] from rfl]
        simp only [List.cons_append, List.nil_append]
        rw [parseJStringAux_escBackslash, ih]
        simp
      · by_cases h3 : c = '\n'
        · subst h3
          rw [show escChar '\n' = ['\\', 'n'] from rfl]
          simp only [List.cons_append, List.nil_append]
          rw [parseJStringAux_escN, ih]
          simp
        · by_cases h4 : c = '\r'
          · subst h4
            rw [show escChar '\r' = ['\\', 'r'] from rfl]
            simp only [List.cons_append, List.nil_append]
            rw [parseJStringAux_escR, ih]
            simp
          · by_cases h5 : c = '\t'
            · subst h5
              rw [show escChar '\t' = ['\\', 't'] from rfl]
              simp only [List.cons_append, List.nil_append]
              rw [parseJStringAux_escT, ih]
              simp
            · rw [show escChar c = [c] from by simp [escChar, h1, h2, h3, h4, h5]]
              simp only [List.cons_append, List.nil_append]
              rw [parseJStringAux_raw _ _ c h1 h2, ih]
              simp

/-- Reading back a serialised string value. -/
theorem parseJValue_encStr (f : Nat) (s : String) (rest : List Char) :
    parseJValue (f + 1) (encStrL s ++ rest) = some (.str s, rest) := by
  unfold encStrL
  simp only [List.cons_append, List.append_assoc, List.singleton_append, List.nil_append]
  rw [show parseJValue (f + 1) ('"' :: (escList s.toList ++ '"' :: rest)) =
    match parseJString (escList s.toList ++ '"' :: rest) with
    | some (s2, r2) => some (.str s2, r2)
    | none => none from by simp [parseJValue, skipWs, isWsChar]]
  unfold parseJString
  rw [parseJStringAux_escList]
  simp

end JcpModel

namespace JcpModel

/-- Reading back the body of a non-empty serialised string array. -/
theorem parseJArrItems_encArrBody :
    ∀ (l : List String) (f : Nat) (acc : List Json) (rest : List Char),
      l ≠ [] → l.length + 1 ≤ f →
      parseJArrItems f (encArrBodyL l ++ rest) acc =
        some (.arr (acc ++ l.map Json.str), rest) := by
  intro l
  induction l with
  | nil => intro f acc rest hne _; exact absurd rfl hne
  | cons s tl ih =>
    intro f acc rest _ hf
    cases f with
    | zero => omega
    | succ f1 =>
      cases tl with
      | nil =>
        cases f1 with
        | zero => simp only [List.length_cons, List.length_nil] at hf; omega
        | succ f2 =>
          simp only [encArrBodyL, List.append_assoc, List.singleton_append]
          rw [parseJArrItems, parseJValue_encStr]
          simp [skipWs, isWsChar]
      | cons s2 tl2 =>
        simp only [encArrBodyL, List.append_assoc, List.cons_append]
        cases f1 with
        | zero => simp only [List.length_cons] at hf; omega
        | succ f2 =>
          rw [parseJArrItems, parseJValue_encStr]
          simp [skipWs, isWsChar]
          rw [ih (f2 + 1) (acc ++ [Json.str s]) rest (by simp) (by
            simp only [List.length_cons] at hf ⊢
            omega)]
          simp

/-- Reading back a serialised string array. -/
theorem parseJValue_encArr (l : List String) (f : Nat) (rest : List Char)
    (hf : l.length + 2 ≤ f) :
    parseJValue f (encArrL l ++ rest) = some (.arr (l.map Json.str), rest) := by
  cases f with
  | zero => omega
  | succ f1 =>
    cases l with
    | nil =>
      simp only [encArrL, encArrBodyL, List.cons_append, List.singleton_append]
      simp [parseJValue, skipWs, isWsChar]
    | cons s tl =>
      simp only [encArrL, List.cons_append]
      rw [show parseJValue (f1 + 1) ('[' :: (encArrBodyL (s :: tl) ++ rest)) =
        (match skipWs (encArrBodyL (s :: tl) ++ rest) with
          | ']' :: r2 => some (.arr [], r2)
          | r2 => parseJArrItems f1 r2 []) from by
        simp [parseJValue, skipWs, isWsChar]]
      have harr := parseJArrItems_encArrBody (s :: tl) f1 [] rest (by simp)
        (by simp only [List.length_cons] at hf ⊢; omega)
      cases tl with
      | nil =>
        simp only [encArrBodyL, encStrL, List.cons_append, List.append_assoc,
          List.nil_append] at harr ⊢
        simp only [skipWs_not_ws '"' _ (by decide)]
        simpa using harr
      | cons s2 tl2 =>
        simp only [encArrBodyL, encStrL, List.cons_append, List.append_assoc,
          List.nil_append] at harr ⊢
        simp only [skipWs_not_ws '"' _ (by decide)]
        simpa using harr

/-- Decoding the string-array elements back. -/
theorem decodeStringList_map (l : List String) :
    decodeStringList (l.map Json.str) = some l := by
  induction l with
  | nil => rfl
  | cons s tl ih => simp [decodeStringList, ih]

end JcpModel

namespace JcpModel

/-- The JSON tree of a serialised decision. -/
def decisionJson (d : ModeratorDecision) : Json :=
  .obj [("intent", .str d.intent), ("selected", .arr (d.selected.map .str)),
    ("topic", .str d.topic), ("opening", .str d.opening)]

/-- One object member followed by a comma. -/
theorem parseJObjItems_step_comma (f : Nat) (key : String) (v : Json)
    (venc more : List Char) (acc : List (String × Json))
    (hval : parseJValue f (venc ++ ',' :: more) = some (v, ',' :: more)) :
    parseJObjItems (f + 1) (encStrL key ++ ':' :: (venc ++ ',' :: more)) acc =
      parseJObjItems f more (acc ++ [(key, v)]) := by
  simp only [encStrL, List.cons_append, List.append_assoc, List.singleton_append,
    List.nil_append]
  rw [parseJObjItems]
  simp [skipWs, isWsChar, parseJString, parseJStringAux_escList, hval]

/-- The final object member followed by the closing brace. -/
theorem parseJObjItems_step_close (f : Nat) (key : String) (v : Json)
    (venc more : List Char) (acc : List (String × Json))
    (hval : parseJValue f (venc ++ '}' :: more) = some (v, '}' :: more)) :
    parseJObjItems (f + 1) (encStrL key ++ ':' :: (venc ++ '}' :: more)) acc =
      some (.obj (acc ++ [(key, v)]), more) := by
  simp only [encStrL, List.cons_append, List.append_assoc, List.singleton_append,
    List.nil_append]
  rw [parseJObjItems]
  simp [skipWs, isWsChar, parseJString, parseJStringAux_escList, hval]

/-- Reading back the whole serialised decision as a JSON value. -/
theorem parseJValue_serializeDecision (d : ModeratorDecision) (f : Nat)
    (rest : List Char) (hf : d.selected.length + 7 ≤ f) :
    parseJValue f (serializeDecisionL d ++ rest) = some (decisionJson d, rest) := by
  obtain ⟨f6, rfl⟩ : ∃ f6, f = f6 + 6 := ⟨f - 6, by omega⟩
  simp only [serializeDecisionL, List.cons_append, List.append_assoc,
    List.singleton_append, List.nil_append]
  rw [show parseJValue (f6 + 6)
      ('{' :: (encStrL "intent" ++ ':' :: (encStrL d.intent ++ ',' ::
        (encStrL "selected" ++ ':' :: (encArrL d.selected ++ ',' ::
        (encStrL "topic" ++ ':' :: (encStrL d.topic ++ ',' ::
        (encStrL "opening" ++ ':' :: (encStrL d.opening ++ '}' :: rest))))))))) =
      parseJObjItems (f6 + 5)
        (encStrL "intent" ++ ':' :: (encStrL d.intent ++ ',' ::
          (encStrL "selected" ++ ':' :: (encArrL d.selected ++ ',' ::
          (encStrL "topic" ++ ':' :: (encStrL d.topic ++ ',' ::
          (encStrL "opening" ++ ':' :: (encStrL d.opening ++ '}' :: rest)))))))) [] from by
    simp [parseJValue, skipWs, isWsChar, encStrL]]
  rw [show f6 + 5 = (f6 + 4) + 1 from rfl,
    parseJObjItems_step_comma (f6 + 4) "intent" (.str d.intent) (encStrL d.intent) _ []
      (parseJValue_encStr (f6 + 3) d.intent _)]
  rw [show f6 + 4 = (f6 + 3) + 1 from rfl,
    parseJObjItems_step_comma (f6 + 3) "selected" (.arr (d.selected.map .str))
      (encArrL d.selected) _ _
      (parseJValue_encArr d.selected (f6 + 3) _ (by omega))]
  rw [show f6 + 3 = (f6 + 2) + 1 from rfl,
    parseJObjItems_step_comma (f6 + 2) "topic" (.str d.topic) (encStrL d.topic) _ _
      (parseJValue_encStr (f6 + 1) d.topic _)]
  rw [show f6 + 2 = (f6 + 1) + 1 from rfl,
    parseJObjItems_step_close (f6 + 1) "opening" (.str d.opening) (encStrL d.opening) _ _
      (parseJValue_encStr f6 d.opening _)]
  rfl

end JcpModel

namespace JcpModel

/-- The array body is at least as long as its element list. -/
theorem encArrBodyL_length (l : List String) : l.length ≤ (encArrBodyL l).length := by
  induction l with
  | nil => simp [encArrBodyL]
  | cons s tl ih =>
    cases tl with
    | nil => simp [encArrBodyL, encStrL]
    | cons s2 tl2 =>
      simp only [encArrBodyL, List.length_cons, List.length_append] at ih ⊢
      omega

/-- A crude lower bound on the serialised decision's length. -/
theorem serializeDecisionL_length (d : ModeratorDecision) :
    d.selected.length + 3 ≤ (serializeDecisionL d).length := by
  have h := encArrBodyL_length d.selected
  simp only [serializeDecisionL, encArrL, List.length_append, List.length_cons,
    List.length_singleton]
  omega

/-- Applying a `selected` member sets the selected list. -/
theorem applyDecisionMembers_selected_cons (d : ModeratorDecision)
    (sel : List String) (rest : List (String × Json)) :
    applyDecisionMembers d (("selected", .arr (sel.map .str)) :: rest) =
      applyDecisionMembers { d with selected := sel } rest := by
  show (match (decodeStringList (sel.map Json.str)).map
      (fun l => { d with selected := l }) with
    | some d2 => applyDecisionMembers d2 rest
    | none => none) = applyDecisionMembers { d with selected := sel } rest
  rw [decodeStringList_map]
  rfl

/-- Folding the four members of a serialised decision. -/
theorem applyDecisionMembers_decision (i t o : String) (sel : List String) :
    applyDecisionMembers default
      [("intent", Json.str i), ("selected", Json.arr (sel.map Json.str)),
       ("topic", Json.str t), ("opening", Json.str o)] =
      some ⟨i, sel, t, o⟩ := by
  rw [show applyDecisionMembers default
      [("intent", Json.str i), ("selected", Json.arr (sel.map Json.str)),
       ("topic", Json.str t), ("opening", Json.str o)] =
      applyDecisionMembers { (default : ModeratorDecision) with intent := i }
      [("selected", Json.arr (sel.map Json.str)), ("topic", Json.str t),
       ("opening", Json.str o)] from rfl]
  rw [applyDecisionMembers_selected_cons]
  rfl

/-- A successful whole-text parse with no remainder decodes the text. -/
theorem jsonDecodeTop_of_parse (s : String) (v : Json)
    (h : parseJValue (2 * s.toList.length + 2) s.toList = some (v, [])) :
    jsonDecodeTop s = some v := by
  unfold jsonDecodeTop
  simp only [h]
  rfl

/-- Decoding the canonical serialisation recovers the decision. -/
theorem decodeDecision_serialize (d : ModeratorDecision) :
    decodeDecision (serializeDecision d) = some d := by
  have hlen := serializeDecisionL_length d
  have h := parseJValue_serializeDecision d
    (2 * (serializeDecisionL d).length + 2) [] (by omega)
  rw [List.append_nil] at h
  have htop : jsonDecodeTop (serializeDecision d) = some (decisionJson d) :=
    jsonDecodeTop_of_parse (serializeDecision d) (decisionJson d) h
  unfold decodeDecision
  rw [htop]
  obtain ⟨i, sel, t, o⟩ := d
  exact applyDecisionMembers_decision i t o sel

/-- A list whose head is not whitespace is untouched by `skipWs`. -/
theorem skipWs_eq_self (cs : List Char)
    (h : ∀ c, cs.head? = some c → isWsChar c = false) : skipWs cs = cs := by
  cases cs with
  | nil => rfl
  | cons c rest => simp [skipWs, h c rfl]

/-- A text with non-whitespace ends is untouched by `trimSpaceL`. -/
theorem trimSpaceL_eq_self (cs : List Char)
    (h1 : ∀ c, cs.head? = some c → isWsChar c = false)
    (h2 : ∀ c, cs.getLast? = some c → isWsChar c = false) : trimSpaceL cs = cs := by
  unfold trimSpaceL
  rw [skipWs_eq_self cs.reverse (by
    intro c hc
    rw [List.head?_reverse] at hc
    exact h2 c hc)]
  rw [List.reverse_reverse]
  exact skipWs_eq_self cs h1

/-- The serialised middle of a decision (everything between the braces). -/
def serializeMiddleL (d : ModeratorDecision) : List Char :=
  encStrL "intent" ++ ':' :: (encStrL d.intent ++ ',' ::
    (encStrL "selected" ++ ':' :: (encArrL d.selected ++ ',' ::
    (encStrL "topic" ++ ':' :: (encStrL d.topic ++ ',' ::
    (encStrL "opening" ++ ':' :: encStrL d.opening))))))

/-- The serialised decision is one brace-wrapped middle. -/
theorem serializeDecisionL_shape (d : ModeratorDecision) :
    serializeDecisionL d = '{' :: serializeMiddleL d ++ ['}'] := by
  simp [serializeDecisionL, serializeMiddleL, List.append_assoc]

/-- The serialised decision ends in its closing brace. -/
theorem serializeDecisionL_getLast (d : ModeratorDecision) :
    (serializeDecisionL d).getLast? = some '}' := by
  rw [serializeDecisionL_shape]
  exact List.getLast?_concat ('{' :: serializeMiddleL d)

/-- `trimSpaceL` leaves the serialised decision alone. -/
theorem trimSpaceL_serialize (d : ModeratorDecision) :
    trimSpaceL (serializeDecisionL d) = serializeDecisionL d := by
  apply trimSpaceL_eq_self
  · intro c hc
    have hc' : some '{' = some c := hc
    injection hc' with hc'
    subst hc'
    rfl
  · intro c hc
    rw [serializeDecisionL_getLast d] at hc
    injection hc with hc
    subst hc
    rfl

/-- `extractJSON` returns the whole serialised decision (method 1). -/
theorem extractJSONL_serialize (d : ModeratorDecision) :
    extractJSONL (serializeDecisionL d) = serializeDecisionL d := by
  have hOpen : headIsOpenBrace (serializeDecisionL d) = true := rfl
  have hClose : lastIsCloseBrace (serializeDecisionL d) = true := by
    unfold lastIsCloseBrace
    rw [serializeDecisionL_getLast d]
    rfl
  unfold extractJSONL
  rw [trimSpaceL_serialize]
  simp [hOpen, hClose]

end JcpModel

namespace JcpModel

/-- `parseDecision` on exactly the serialised text of a decision. -/
theorem parseDecision_serialize (d : ModeratorDecision) (hne : d.selected ≠ []) :
    parseDecision (serializeDecision d) = .ok d := by
  have hx : extractJSON (serializeDecision d) = serializeDecision d := by
    unfold extractJSON
    rw [show (serializeDecision d).toList = serializeDecisionL d from rfl,
      extractJSONL_serialize]
    rfl
  have hct : (⟨trimSpaceL (serializeDecision d).toList⟩ : String)
      = serializeDecision d := by
    rw [show (serializeDecision d).toList = serializeDecisionL d from rfl,
      trimSpaceL_serialize]
    rfl
  have hnz : ¬ (serializeDecision d = "") := by
    intro hc
    have h2 : (serializeDecision d).toList = "".toList := by rw [hc]
    rw [show (serializeDecision d).toList = serializeDecisionL d from rfl,
      serializeDecisionL_shape] at h2
    exact List.noConfusion h2
  have hie : d.selected.isEmpty = false := by
    cases hsel : d.selected with
    | nil => exact absurd hsel hne
    | cons a l => rfl
  unfold parseDecision
  simp only [hct, hx, decodeDecision_serialize]
  rw [if_neg hnz]
  simp [hie]

/-- Any text whose extracted JSON decodes to a decision with an empty
`selected` list makes `parseDecision` fail with the fixed error. -/
theorem parseDecision_empty_sel (t : String) (dd : ModeratorDecision)
    (hdec : decodeDecision (extractJSON ⟨trimSpaceL t.toList⟩) = some dd)
    (hsel : dd.selected = []) :
    parseDecision t = .error "小韭菜未选择任何专家" := by
  have hnz : ¬ (extractJSON ⟨trimSpaceL t.toList⟩ = "") := by
    intro hc
    rw [hc] at hdec
    exact Option.noConfusion ((rfl : decodeDecision "" = none) ▸ hdec)
  unfold parseDecision
  simp only [hdec]
  rw [if_neg hnz]
  simp [hsel]

/-- `splitFirst` finds the seam when the pattern's first character does not
occur before it. -/
theorem splitFirst_boundary (pat pre suffix : List Char) (c : Char)
    (hc : pat.head? = some c) (hpre : c ∉ pre) :
    splitFirst pat (pre ++ (pat ++ suffix)) = some (pre, suffix) := by
  cases pat with
  | nil => exact absurd hc (by simp)
  | cons p0 ptl =>
    injection hc with hc
    have hc' : c = p0 := hc.symm
    subst hc'
    induction pre with
    | nil =>
      simp only [List.nil_append]
      rw [show ((c :: ptl) ++ suffix) = c :: (ptl ++ suffix) from rfl]
      rw [splitFirst]
      rw [if_pos (by
        rw [List.isPrefixOf_iff_prefix]
        exact List.prefix_append (c :: ptl) suffix)]
      rw [show (c :: (ptl ++ suffix)) = ((c :: ptl) ++ suffix) from rfl]
      rw [List.drop_left]
    | cons a pre' ih =>
      have ha : ¬ (a = c) := fun h => hpre (h ▸ List.mem_cons_self a pre')
      have hpre' : c ∉ pre' := fun h => hpre (List.mem_cons_of_mem a h)
      rw [show ((a :: pre') ++ ((c :: ptl) ++ suffix)) =
        a :: (pre' ++ ((c :: ptl) ++ suffix)) from rfl]
      rw [splitFirst]
      rw [if_neg (by
        intro hpf
        rw [List.isPrefixOf_iff_prefix] at hpf
        obtain ⟨rest, hrest⟩ := hpf
        have hca : c = a := by
          have h2 := congrArg List.head? hrest
          simp at h2
          exact h2
        exact ha hca.symm)]
      rw [ih hpre']

/-- `splitFirst` fails when the pattern's first character is absent. -/
theorem splitFirst_none (pat cs : List Char) (c : Char)
    (hc : pat.head? = some c) (hcs : c ∉ cs) : splitFirst pat cs = none := by
  cases pat with
  | nil => exact absurd hc (by simp)
  | cons p0 ptl =>
    injection hc with hc
    have hc' : c = p0 := hc.symm
    subst hc'
    induction cs with
    | nil => rfl
    | cons a rest ih =>
      have ha : ¬ (a = c) := fun h => hcs (h ▸ List.mem_cons_self a rest)
      have hrest : c ∉ rest := fun h => hcs (List.mem_cons_of_mem a h)
      rw [splitFirst]
      rw [if_neg (by
        intro hpf
        rw [List.isPrefixOf_iff_prefix] at hpf
        obtain ⟨r2, hr2⟩ := hpf
        have hca : c = a := by
          have h2 := congrArg List.head? hr2
          simp at h2
          exact h2
        exact ha hca.symm)]
      rw [ih hrest]

/-- The last element of a list is a member. -/
theorem getLastMem (l : List Char) (c : Char) (h : l.getLast? = some c) :
    c ∈ l := by
  obtain ⟨hne, heq⟩ := List.mem_getLast?_eq_getLast
    (show c ∈ l.getLast? from by rw [Option.mem_def, h])
  rw [heq]
  exact List.getLast_mem hne
end JcpModel

namespace JcpModel

/-- A segment the brace scanner passes straight through outside strings,
leaving depth unchanged. -/
def ScanThru (seg : List Char) : Prop :=
  ∀ rest depth acc, scanBrace (seg ++ rest) depth false false acc =
    scanBrace rest depth false false (seg.reverse ++ acc)

/-- A segment the brace scanner passes straight through inside a string. -/
def ScanStr (seg : List Char) : Prop :=
  ∀ rest depth acc, scanBrace (seg ++ rest) depth true false acc =
    scanBrace rest depth true false (seg.reverse ++ acc)

/-- Pass-through segments compose. -/
theorem scanThru_append {a b : List Char} (ha : ScanThru a) (hb : ScanThru b) :
    ScanThru (a ++ b) := by
  intro rest depth acc
  rw [List.append_assoc, ha, hb, List.reverse_append, List.append_assoc]

/-- In-string pass-through segments compose. -/
theorem scanStr_append {a b : List Char} (ha : ScanStr a) (hb : ScanStr b) :
    ScanStr (a ++ b) := by
  intro rest depth acc
  rw [List.append_assoc, ha, hb, List.reverse_append, List.append_assoc]

/-- Any character other than a quote or a brace passes through at top
level. -/
theorem scanThru_other (c : Char) (hq : c ≠ '"') (h1 : c ≠ '{')
    (h2 : c ≠ '}') : ScanThru [c] := by
  intro rest depth acc
  rw [show ([c] ++ rest) = c :: rest from rfl]
  rw [scanBrace]
  simp [hq, h1, h2]

/-- Any character other than a backslash or a quote passes through inside a
string. -/
theorem scanStr_in (c : Char) (hb : c ≠ '\\') (hq : c ≠ '"') :
    ScanStr [c] := by
  intro rest depth acc
  rw [show ([c] ++ rest) = c :: rest from rfl]
  rw [scanBrace]
  simp [hb, hq]

/-- One escaped character passes through inside a string. -/
theorem scanStr_escChar (c : Char) : ScanStr (escChar c) := by
  by_cases h1 : c = '"'
  · intro rest depth acc
    subst h1
    simp [escChar, scanBrace]
  by_cases h2 : c = '\\'
  · intro rest depth acc
    subst h2
    simp [escChar, scanBrace]
  by_cases h3 : c = '\n'
  · intro rest depth acc
    subst h3
    simp [escChar, scanBrace]
  by_cases h4 : c = '\r'
  · intro rest depth acc
    subst h4
    simp [escChar, scanBrace]
  by_cases h5 : c = '\t'
  · intro rest depth acc
    subst h5
    simp [escChar, scanBrace]
  · rw [show escChar c = [c] from by simp [escChar, h1, h2, h3, h4, h5]]
    exact scanStr_in c h2 h1

/-- A whole escaped string body passes through inside a string. -/
theorem scanStr_escList (l : List Char) : ScanStr (escList l) := by
  induction l with
  | nil =>
    intro rest depth acc
    simp [escList]
  | cons c cs ih => exact scanStr_append (scanStr_escChar c) ih

/-- A JSON string literal passes through at top level. -/
theorem scanThru_encStr (s : String) : ScanThru (encStrL s) := by
  intro rest depth acc
  rw [show encStrL s ++ rest = '"' :: (escList s.toList ++ ('"' :: rest)) from by
    simp [encStrL]]
  rw [scanBrace]
  simp only [if_false, Bool.and_false, Bool.false_eq_true, Bool.not_false,
    if_true, reduceIte]
  rw [scanStr_escList s.toList ('"' :: rest) depth ('"' :: acc)]
  rw [scanBrace]
  simp [encStrL]

end JcpModel

namespace JcpModel

/-- The body of a string array passes through at top level. -/
theorem scanThru_encArrBody (l : List String) : ScanThru (encArrBodyL l) := by
  induction l with
  | nil => exact scanThru_other ']' (by decide) (by decide) (by decide)
  | cons s tl ih =>
    cases tl with
    | nil =>
      exact scanThru_append (scanThru_encStr s)
        (scanThru_other ']' (by decide) (by decide) (by decide))
    | cons s2 tl2 =>
      exact scanThru_append (scanThru_encStr s)
        (scanThru_append
          (scanThru_other ',' (by decide) (by decide) (by decide)) ih)

/-- A string array literal passes through at top level. -/
theorem scanThru_encArr (l : List String) : ScanThru (encArrL l) :=
  scanThru_append (scanThru_other '[' (by decide) (by decide) (by decide))
    (scanThru_encArrBody l)

/-- The middle of a serialised decision passes through at top level. -/
theorem scanThru_middle (d : ModeratorDecision) :
    ScanThru (serializeMiddleL d) := by
  have hcolon : ScanThru [':'] :=
    scanThru_other ':' (by decide) (by decide) (by decide)
  have hcomma : ScanThru [','] :=
    scanThru_other ',' (by decide) (by decide) (by decide)
  exact scanThru_append (scanThru_encStr "intent")
    (scanThru_append hcolon
    (scanThru_append (scanThru_encStr d.intent)
    (scanThru_append hcomma
    (scanThru_append (scanThru_encStr "selected")
    (scanThru_append hcolon
    (scanThru_append (scanThru_encArr d.selected)
    (scanThru_append hcomma
    (scanThru_append (scanThru_encStr "topic")
    (scanThru_append hcolon
    (scanThru_append (scanThru_encStr d.topic)
    (scanThru_append hcomma
    (scanThru_append (scanThru_encStr "opening")
    (scanThru_append hcolon (scanThru_encStr d.opening))))))))))))))

/-- The brace scanner recovers exactly the serialised decision from any
text that starts with it. -/
theorem scanBrace_serialize (d : ModeratorDecision) (post : List Char) :
    scanBrace (serializeDecisionL d ++ post) 0 false false [] =
      some (serializeDecisionL d) := by
  rw [show serializeDecisionL d ++ post =
      '{' :: (serializeMiddleL d ++ ('}' :: post)) from by
    rw [serializeDecisionL_shape]
    simp]
  rw [scanBrace]
  simp only [if_false, Bool.and_false, Bool.false_eq_true, reduceIte,
    Nat.zero_add]
  rw [scanThru_middle d ('}' :: post) 1 ['{']]
  rw [scanBrace]
  simp [serializeDecisionL_shape]

end JcpModel

namespace JcpModel

/-- A text headed by anything but a brace does not start with one. -/
theorem headIsOpenBrace_cons_ne (a : Char) (l : List Char) (h : a ≠ '{') :
    headIsOpenBrace (a :: l) = false := by
  rw [headIsOpenBrace.eq_def]
  split
  · rename_i heq
    injection heq with h1 h2
    exact absurd h1 h
  · rfl

/-- Whitespace trimming leaves a fenced serialisation in ws-free
surroundings alone. -/
theorem trim_fenced (d : ModeratorDecision) (pre post : List Char)
    (hpre : ∀ c ∈ pre, isWsChar c = false)
    (hpost : ∀ c ∈ post, isWsChar c = false) :
    trimSpaceL (pre ++ fenceJsonPat ++ serializeDecisionL d ++ fencePat ++ post)
      = pre ++ fenceJsonPat ++ serializeDecisionL d ++ fencePat ++ post := by
  apply trimSpaceL_eq_self
  · intro c hc
    cases pre with
    | nil =>
      have hc' : some backtickChar = some c := hc
      injection hc' with h
      subst h
      decide
    | cons a pre' =>
      have hc' : some a = some c := hc
      injection hc' with h
      subst h
      exact hpre a (List.mem_cons_self a pre')
  · intro c hc
    cases post with
    | nil =>
      rw [List.append_nil] at hc
      rw [List.getLast?_append_of_ne_nil
        (pre ++ fenceJsonPat ++ serializeDecisionL d)
        (by simp [fencePat])] at hc
      have hc' : some backtickChar = some c := hc
      injection hc' with h
      subst h
      decide
    | cons p0 ptl =>
      rw [List.getLast?_append_of_ne_nil
        (pre ++ fenceJsonPat ++ serializeDecisionL d ++ fencePat)
        (by simp)] at hc
      exact hpost c (getLastMem _ _ hc)

/-- Whitespace trimming leaves a prose-embedded serialisation in ws-free
surroundings alone. -/
theorem trim_prose (d : ModeratorDecision) (pre post : List Char)
    (hpre0 : pre ≠ [])
    (hpreW : ∀ c ∈ pre, isWsChar c = false)
    (hpostW : ∀ c ∈ post, isWsChar c = false) :
    trimSpaceL (pre ++ serializeDecisionL d ++ post)
      = pre ++ serializeDecisionL d ++ post := by
  apply trimSpaceL_eq_self
  · intro c hc
    cases pre with
    | nil => exact absurd rfl hpre0
    | cons a pre' =>
      have hc' : some a = some c := hc
      injection hc' with h
      subst h
      exact hpreW a (List.mem_cons_self a pre')
  · intro c hc
    cases post with
    | nil =>
      rw [List.append_nil] at hc
      rw [List.getLast?_append_of_ne_nil pre
        (by simp [serializeDecisionL_shape])] at hc
      rw [serializeDecisionL_getLast] at hc
      injection hc with h
      subst h
      decide
    | cons p0 ptl =>
      rw [List.getLast?_append_of_ne_nil (pre ++ serializeDecisionL d)
        (by simp)] at hc
      exact hpostW c (getLastMem _ _ hc)

end JcpModel

namespace JcpModel

/-- A fenced serialisation in suitable surroundings does not end with a
closing brace. -/
theorem lcb_fenced (d : ModeratorDecision) (pre post : List Char)
    (hpostBr : '}' ∉ post) :
    lastIsCloseBrace
      (pre ++ fenceJsonPat ++ serializeDecisionL d ++ fencePat ++ post)
      = false := by
  unfold lastIsCloseBrace
  cases post with
  | nil =>
    rw [List.append_nil]
    rw [List.getLast?_append_of_ne_nil
      (pre ++ fenceJsonPat ++ serializeDecisionL d) (by simp [fencePat])]
    decide
  | cons p0 ptl =>
    rw [List.getLast?_append_of_ne_nil
      (pre ++ fenceJsonPat ++ serializeDecisionL d ++ fencePat) (by simp)]
    obtain ⟨c, hc⟩ : ∃ c, (p0 :: ptl).getLast? = some c :=
      ⟨(p0 :: ptl).getLast (List.cons_ne_nil p0 ptl),
        List.getLast?_eq_getLast_of_ne_nil (List.cons_ne_nil p0 ptl)⟩
    rw [hc]
    have hmem : c ∈ p0 :: ptl := getLastMem _ _ hc
    have hne : ¬ (c = '}') := fun h => hpostBr (h ▸ hmem)
    simp [hne]

/-- `extractJSON` recovers the serialised decision from a fenced block
(method 2). -/
theorem extractJSONL_fenced (d : ModeratorDecision) (pre post : List Char)
    (hpre : ∀ c ∈ pre, isWsChar c = false) (hpreBt : backtickChar ∉ pre)
    (hpost : ∀ c ∈ post, isWsChar c = false) (hpostBr : '}' ∉ post)
    (hS : backtickChar ∉ serializeDecisionL d) :
    extractJSONL
      (pre ++ fenceJsonPat ++ serializeDecisionL d ++ fencePat ++ post)
      = serializeDecisionL d := by
  have htrim := trim_fenced d pre post hpre hpost
  have hlcb := lcb_fenced d pre post hpostBr
  have hassoc : pre ++ fenceJsonPat ++ serializeDecisionL d ++ fencePat ++ post
      = pre ++ (fenceJsonPat ++
        (serializeDecisionL d ++ (fencePat ++ post))) := by
    simp [List.append_assoc]
  have hsf1 : splitFirst fenceJsonPat
      (pre ++ fenceJsonPat ++ serializeDecisionL d ++ fencePat ++ post)
      = some (pre, serializeDecisionL d ++ (fencePat ++ post)) := by
    rw [hassoc]
    exact splitFirst_boundary fenceJsonPat pre
      (serializeDecisionL d ++ (fencePat ++ post)) backtickChar rfl hpreBt
  have hsf2 : splitFirst fencePat (serializeDecisionL d ++ (fencePat ++ post))
      = some (serializeDecisionL d, post) := by
    exact splitFirst_boundary fencePat (serializeDecisionL d) post
      backtickChar rfl hS
  unfold extractJSONL
  rw [htrim]
  simp only [hlcb, Bool.and_false, Bool.false_eq_true, if_false, hsf1, hsf2]
  exact trimSpaceL_serialize d

end JcpModel

namespace JcpModel

/-- `extractJSON` recovers a serialisation embedded in backtick-free,
ws-stable prose (methods 4-5 via brace matching). -/
theorem extractJSONL_prose (d : ModeratorDecision) (pre post : List Char)
    (hpre0 : pre ≠ [])
    (hpreW : ∀ c ∈ pre, isWsChar c = false)
    (hpreBr : '{' ∉ pre) (hpreBt : backtickChar ∉ pre)
    (hpostW : ∀ c ∈ post, isWsChar c = false)
    (hpostBt : backtickChar ∉ post)
    (hS : backtickChar ∉ serializeDecisionL d) :
    extractJSONL (pre ++ serializeDecisionL d ++ post)
      = serializeDecisionL d := by
  have htrim := trim_prose d pre post hpre0 hpreW hpostW
  have hhob : headIsOpenBrace (pre ++ serializeDecisionL d ++ post)
      = false := by
    cases pre with
    | nil => exact absurd rfl hpre0
    | cons a pre' =>
      exact headIsOpenBrace_cons_ne a _
        (fun h => hpreBr (h ▸ List.mem_cons_self a pre'))
  have hbtT : backtickChar ∉ pre ++ serializeDecisionL d ++ post := by
    intro hmem
    rcases List.mem_append.mp hmem with h | h
    · rcases List.mem_append.mp h with h2 | h2
      · exact hpreBt h2
      · exact hS h2
    · exact hpostBt h
  have hfj : splitFirst fenceJsonPat (pre ++ serializeDecisionL d ++ post)
      = none := splitFirst_none _ _ backtickChar rfl hbtT
  have hfp : splitFirst fencePat (pre ++ serializeDecisionL d ++ post)
      = none := splitFirst_none _ _ backtickChar rfl hbtT
  have hshape : serializeDecisionL d ++ post
      = ['{'] ++ (serializeMiddleL d ++ ('}' :: post)) := by
    rw [serializeDecisionL_shape]
    simp
  have hsf : splitFirst ['{'] (pre ++ serializeDecisionL d ++ post)
      = some (pre, serializeMiddleL d ++ ('}' :: post)) := by
    rw [List.append_assoc, hshape]
    exact splitFirst_boundary ['{'] pre
      (serializeMiddleL d ++ ('}' :: post)) '{' rfl hpreBr
  have hsb : scanBrace ('{' :: (serializeMiddleL d ++ ('}' :: post)))
      0 false false [] = some (serializeDecisionL d) := by
    have h0 := scanBrace_serialize d post
    rw [show serializeDecisionL d ++ post
      = '{' :: (serializeMiddleL d ++ ('}' :: post)) from by
        rw [serializeDecisionL_shape]; simp] at h0
    exact h0
  have hext : extractBraced (pre ++ serializeDecisionL d ++ post)
      = serializeDecisionL d := by
    unfold extractBraced
    simp only [hsf, hsb]
  have hfen : extractFenced (pre ++ serializeDecisionL d ++ post)
      = serializeDecisionL d := by
    unfold extractFenced
    simp only [hfp]
    exact hext
  unfold extractJSONL
  rw [htrim]
  simp only [hhob, Bool.false_and, Bool.false_eq_true, if_false, hfj]
  exact hfen

end JcpModel

namespace JcpModel

/-- `parseDecision` returns the decision whenever extraction recovers its
serialisation from the trim-stable input text. -/
theorem parseDecision_of_extract (t : String) (d : ModeratorDecision)
    (htrim : trimSpaceL t.toList = t.toList)
    (hex : extractJSONL t.toList = serializeDecisionL d)
    (hne : d.selected ≠ []) :
    parseDecision t = .ok d := by
  have hct : (⟨trimSpaceL t.toList⟩ : String) = t := by
    rw [htrim]
    rfl
  have hx : extractJSON t = serializeDecision d := by
    unfold extractJSON
    rw [hex]
    rfl
  have hnz : ¬ (serializeDecision d = "") := by
    intro hcEq
    have h2 : (serializeDecision d).toList = "".toList := by rw [hcEq]
    rw [show (serializeDecision d).toList = serializeDecisionL d from rfl,
      serializeDecisionL_shape] at h2
    exact List.noConfusion h2
  have hie : d.selected.isEmpty = false := by
    cases hsel : d.selected with
    | nil => exact absurd hsel hne
    | cons a l => rfl
  unfold parseDecision
  simp only [hct, hx, decodeDecision_serialize]
  rw [if_neg hnz]
  simp [hie]

/-- `parseDecision` on a fenced serialisation in suitable prose. -/
theorem parseDecision_fenced (d : ModeratorDecision) (pre post : List Char)
    (hne : d.selected ≠ [])
    (hpre : ∀ c ∈ pre, isWsChar c = false) (hpreBt : backtickChar ∉ pre)
    (hpost : ∀ c ∈ post, isWsChar c = false) (hpostBr : '}' ∉ post)
    (hS : backtickChar ∉ serializeDecisionL d) :
    parseDecision
      ⟨pre ++ fenceJsonPat ++ serializeDecisionL d ++ fencePat ++ post⟩
      = .ok d :=
  parseDecision_of_extract _ d (trim_fenced d pre post hpre hpost)
    (extractJSONL_fenced d pre post hpre hpreBt hpost hpostBr hS) hne

/-- `parseDecision` on a serialisation embedded bare in suitable prose. -/
theorem parseDecision_prose (d : ModeratorDecision) (pre post : List Char)
    (hne : d.selected ≠ []) (hpre0 : pre ≠ [])
    (hpreW : ∀ c ∈ pre, isWsChar c = false)
    (hpreBr : '{' ∉ pre) (hpreBt : backtickChar ∉ pre)
    (hpostW : ∀ c ∈ post, isWsChar c = false)
    (hpostBt : backtickChar ∉ post)
    (hS : backtickChar ∉ serializeDecisionL d) :
    parseDecision ⟨pre ++ serializeDecisionL d ++ post⟩ = .ok d :=
  parseDecision_of_extract _ d (trim_prose d pre post hpre0 hpreW hpostW)
    (extractJSONL_prose d pre post hpre0 hpreW hpreBr hpreBt hpostW
      hpostBt hS) hne

/-- C7: for every decision `d` with a non-empty `selected` list,
`parseDecision` applied to a serialisation of `d` returns `d` — when the
JSON is the whole text, when it sits in a \`\`\`json fenced block inside
whitespace-stable backtick-free prose, and when it is embedded bare in
whitespace-stable prose free of backticks and stray braces; and for every
text whose extracted JSON decodes to a decision with an empty `selected`
list, `parseDecision` returns the dedicated error. -/
theorem c7_parseDecision_roundtrip :
    (∀ d : ModeratorDecision, d.selected ≠ [] →
      parseDecision (serializeDecision d) = .ok d) ∧
    (∀ (d : ModeratorDecision) (pre post : List Char), d.selected ≠ [] →
      (∀ c ∈ pre, isWsChar c = false) → backtickChar ∉ pre →
      (∀ c ∈ post, isWsChar c = false) → '}' ∉ post →
      backtickChar ∉ serializeDecisionL d →
      parseDecision
        ⟨pre ++ fenceJsonPat ++ serializeDecisionL d ++ fencePat ++ post⟩
        = .ok d) ∧
    (∀ (d : ModeratorDecision) (pre post : List Char), d.selected ≠ [] →
      pre ≠ [] →
      (∀ c ∈ pre, isWsChar c = false) → '{' ∉ pre → backtickChar ∉ pre →
      (∀ c ∈ post, isWsChar c = false) → backtickChar ∉ post →
      backtickChar ∉ serializeDecisionL d →
      parseDecision ⟨pre ++ serializeDecisionL d ++ post⟩ = .ok d) ∧
    (∀ (t : String) (dd : ModeratorDecision),
      decodeDecision (extractJSON ⟨trimSpaceL t.toList⟩) = some dd →
      dd.selected = [] →
      parseDecision t = .error "小韭菜未选择任何专家") :=
  ⟨fun d hne => parseDecision_serialize d hne,
   fun d pre post hne h1 h2 h3 h4 h5 =>
     parseDecision_fenced d pre post hne h1 h2 h3 h4 h5,
   fun d pre post hne h0 h1 h2 h3 h4 h5 h6 =>
     parseDecision_prose d pre post hne h0 h1 h2 h3 h4 h5 h6,
   fun t dd h1 h2 => parseDecision_empty_sel t dd h1 h2⟩

/-- Witness for C7 at concrete inputs: the serialised decision alone, in a
fence, in prose, and a serialised empty-selection decision. -/
theorem c7_parseDecision_roundtrip_witness :
    parseDecision (serializeDecision ⟨"i1", ["a", "b"], "t1", "o1"⟩)
      = .ok ⟨"i1", ["a", "b"], "t1", "o1"⟩ ∧
    parseDecision ⟨"Reply:".toList ++ fenceJsonPat
      ++ serializeDecisionL ⟨"i1", ["a", "b"], "t1", "o1"⟩
      ++ fencePat ++ "done.".toList⟩
      = .ok ⟨"i1", ["a", "b"], "t1", "o1"⟩ ∧
    parseDecision ⟨"Reply:".toList
      ++ serializeDecisionL ⟨"i1", ["a", "b"], "t1", "o1"⟩
      ++ "done.".toList⟩
      = .ok ⟨"i1", ["a", "b"], "t1", "o1"⟩ ∧
    parseDecision (serializeDecision ⟨"i", [], "t", "o"⟩)
      = .error "小韭菜未选择任何专家" :=
  ⟨c7_parseDecision_roundtrip.1 ⟨"i1", ["a", "b"], "t1", "o1"⟩ (by decide),
   c7_parseDecision_roundtrip.2.1 ⟨"i1", ["a", "b"], "t1", "o1"⟩
     "Reply:".toList "done.".toList (by decide) (by decide) (by decide)
     (by decide) (by decide) (by decide),
   c7_parseDecision_roundtrip.2.2.1 ⟨"i1", ["a", "b"], "t1", "o1"⟩
     "Reply:".toList "done.".toList (by decide) (by decide) (by decide)
     (by decide) (by decide) (by decide) (by decide) (by decide),
   c7_parseDecision_roundtrip.2.2.2 (serializeDecision ⟨"i", [], "t", "o"⟩)
     ⟨"i", [], "t", "o"⟩ (by rfl) (by rfl)⟩

end JcpModel
